import Mathlib

/-!
Verification of the ubcc parser (src/src/parse.rs, src/ast/src/lib.rs).

Shallow embedding of the lexer + parser of the ubcc compiler.  The AST and
type model follow `src/ast/src/lib.rs`; the parser follows
`src/src/parse.rs` function by function.  The lexer (`lex.rs`) is not part
of the sources; it is modelled from the specification (section 4.1).

Rust's recursion is modelled with an explicit fuel parameter: every parser
function takes a `Nat` fuel which every call decrements, and running out of
fuel is a distinguished error.  All statements about parse results quantify
over the fuel or use a fuel large enough for the concrete input.
-/

set_option maxHeartbeats 1000000

namespace Ubcc

/-- Tokens of the language.  The variant names are the ones `parse.rs`
matches on (`Token::SemiColon`, `Token::LBrace`, ...). -/
inductive Token where
  | Integer (n : Int)
  | Identifier (name : String)
  | If
  | Else
  | While
  | For
  | Return
  | Void
  | Char
  | Short
  | Int
  | Long
  | Float
  | Double
  | Plus
  | Minus
  | Asterisk
  | Slash
  | LParen
  | RParen
  | LBrace
  | RBrace
  | SemiColon
  | Comma
  | Assignment
  | Eq
  | NotEq
  | Lt
  | LtEq
  | Gt
  | GtEq
  | Eof
deriving DecidableEq, Repr

/-- The `{:?}` (derived `Debug`) rendering of a token, used in the parser's
error messages. -/
def Token.debug : Token → String
  | .Integer n => "Integer(" ++ toString n ++ ")"
  | .Identifier name => "Identifier(\"" ++ name ++ "\")"
  | .If => "If"
  | .Else => "Else"
  | .While => "While"
  | .For => "For"
  | .Return => "Return"
  | .Void => "Void"
  | .Char => "Char"
  | .Short => "Short"
  | .Int => "Int"
  | .Long => "Long"
  | .Float => "Float"
  | .Double => "Double"
  | .Plus => "Plus"
  | .Minus => "Minus"
  | .Asterisk => "Asterisk"
  | .Slash => "Slash"
  | .LParen => "LParen"
  | .RParen => "RParen"
  | .LBrace => "LBrace"
  | .RBrace => "RBrace"
  | .SemiColon => "SemiColon"
  | .Comma => "Comma"
  | .Assignment => "Assignment"
  | .Eq => "Eq"
  | .NotEq => "NotEq"
  | .Lt => "Lt"
  | .LtEq => "LtEq"
  | .Gt => "Gt"
  | .GtEq => "GtEq"
  | .Eof => "Eof"

/-- `TypeEnum` from `ast/src/lib.rs`. -/
inductive TypeEnum where
  | Void
  | Char
  | Short
  | Int
  | Long
  | Float
  | Double
deriving DecidableEq, Repr

/-- `Type` from `ast/src/lib.rs` (`Ty` because `Type` is reserved in Lean). -/
inductive Ty where
  | Primitive (t : TypeEnum)
  | Array (type_ : Ty) (size : Int)
  | Pointer (t : Ty)
deriving DecidableEq, Repr

/-- `Parser::sizeof` / `Type::size`: size in bytes.  `int` is 8 on purpose
(the `FIXME: clash with 4 now` comment in the source).  The `(size * 8) as
usize` cast for arrays is modelled as reduction modulo 2^64. -/
def sizeof : Ty → Nat
  | .Primitive .Void => 0
  | .Primitive .Char => 1
  | .Primitive .Short => 2
  | .Primitive .Int => 8
  | .Primitive .Long => 8
  | .Primitive .Float => 4
  | .Primitive .Double => 8
  | .Pointer _ => 8
  | .Array _ size => ((size * 8) % (2 ^ 64 : Int)).toNat

/-- `BinaryOperator` from `ast/src/lib.rs` (lines 176-187): note there is no
`Gt` and no `GtEq` variant. -/
inductive BinaryOperator where
  | Assignment
  | Plus
  | Minus
  | Slash
  | Asterisk
  | Lt
  | LtEq
  | Eq
  | NotEq
deriving DecidableEq, Repr

/-- `UnaryOperator` from `ast/src/lib.rs`. -/
inductive UnaryOperator where
  | Minus
  | Dereference
  | Reference
deriving DecidableEq, Repr

mutual
/-- `Expression` from `ast/src/lib.rs`. -/
inductive Expression where
  | LocalVariable (name : String) (offset : Nat) (type_ : Ty)
  | Integer (n : Int)
  | Binary (b : BinaryExpression)
  | Unary (u : UnaryExpression)
  | Call (c : CallExpression)
/-- `BinaryExpression` from `ast/src/lib.rs`. -/
inductive BinaryExpression where
  | mk (lhs : Expression) (op : BinaryOperator) (rhs : Expression)
/-- `UnaryExpression` from `ast/src/lib.rs`. -/
inductive UnaryExpression where
  | mk (expr : Expression) (op : UnaryOperator)
/-- `CallExpression` from `ast/src/lib.rs`. -/
inductive CallExpression where
  | mk (callee_name : String) (arguments : List Expression)
end

/-- `InitDeclaration` from `ast/src/lib.rs`. -/
inductive InitDeclaration where
  | mk (name : String) (offset : Nat) (type_ : Ty) (init : Option Expression)

mutual
/-- `Statement` from `ast/src/lib.rs`. -/
inductive Statement where
  | Expression (e : Expression)
  | If (s : IfStatement)
  | While (s : WhileStatement)
  | For (s : ForStatement)
  | Block (stmts : List Statement)
  | Return (e : Expression)
  | FunctionDefinition (f : FunctionDefinition)
  | InitDeclaration (d : InitDeclaration)
/-- `IfStatement` from `ast/src/lib.rs`. -/
inductive IfStatement where
  | mk (condition : Expression) (consequence : Statement) (alternative : Option Statement)
/-- `WhileStatement` from `ast/src/lib.rs`. -/
inductive WhileStatement where
  | mk (condition : Expression) (body : Statement)
/-- `ForStatement` from `ast/src/lib.rs` (the parser's `step` becomes the
`post` field). -/
inductive ForStatement where
  | mk (init : Option Statement) (condition : Option Expression)
       (post : Option Statement) (body : Statement)
/-- `FunctionDefinition` from `ast/src/lib.rs`. -/
inductive FunctionDefinition where
  | mk (name : String) (arguments : List Expression) (body : List Statement)
end

/-- `Program` from `ast/src/lib.rs`. -/
structure Program where
  statements : List Statement

/-! ## Lexer

`lex.rs` is not among the provided sources; only its interface (`Lexer::new`,
`Lexer::next`) is visible from `parse.rs`.  The token-level behaviour below
is modelled from the specification. -/

/-- Modelled from the spec: values of integer tokens.  A run of decimal
digits becomes an `Integer` token; the value is read in base 10 (the spec
restricts attention to literals in 32-bit signed range, where this agrees
with the i32 stored by the Rust lexer). -/
def digitsVal (acc : Nat) : List Char → Nat
  | [] => acc
  | c :: cs => digitsVal (acc * 10 + (c.toNat - '0'.toNat)) cs

/-- Modelled from the spec: identifier continuation characters
(letters, digits and underscore). -/
def isIdentChar (c : Char) : Bool :=
  c.isAlphanum || c == '_'

/-- Modelled from the spec: keyword table of the lexer. -/
def keywordOrIdent (s : String) : Token :=
  if s == "if" then .If
  else if s == "else" then .Else
  else if s == "while" then .While
  else if s == "for" then .For
  else if s == "return" then .Return
  else if s == "void" then .Void
  else if s == "char" then .Char
  else if s == "short" then .Short
  else if s == "int" then .Int
  else if s == "long" then .Long
  else if s == "float" then .Float
  else if s == "double" then .Double
  else .Identifier s

/-- Modelled from the spec: `lex.rs` is not under `src/`.  One step of the
lexer: skip ASCII whitespace, then digits → `Integer`, identifier characters
→ keyword or `Identifier`, two-character operators before one-character
ones, and an unknown character is a lexing error (`none`), which the driver
surfaces as a parse-time invalid-token failure.  Each step consumes at least
one character, so fuel `|input|` suffices. -/
def tokenizeAux : Nat → List Char → Option (List Token)
  | _, [] => some []
  | 0, _ :: _ => none
  | fuel + 1, c :: cs =>
    if c == ' ' || c == '\t' || c == '\n' || c == '\r' then
      tokenizeAux fuel cs
    else if c.isDigit then
      let ds := cs.takeWhile Char.isDigit
      let rest := cs.dropWhile Char.isDigit
      (tokenizeAux fuel rest).map
        (fun ts => Token.Integer (Int.ofNat (digitsVal 0 (c :: ds))) :: ts)
    else if c.isAlpha || c == '_' then
      let ds := cs.takeWhile isIdentChar
      let rest := cs.dropWhile isIdentChar
      (tokenizeAux fuel rest).map
        (fun ts => keywordOrIdent (String.mk (c :: ds)) :: ts)
    else if c == '=' then
      match cs with
      | '=' :: rest => (tokenizeAux fuel rest).map (Token.Eq :: ·)
      | _ => (tokenizeAux fuel cs).map (Token.Assignment :: ·)
    else if c == '!' then
      match cs with
      | '=' :: rest => (tokenizeAux fuel rest).map (Token.NotEq :: ·)
      | _ => none
    else if c == '<' then
      match cs with
      | '=' :: rest => (tokenizeAux fuel rest).map (Token.LtEq :: ·)
      | _ => (tokenizeAux fuel cs).map (Token.Lt :: ·)
    else if c == '>' then
      match cs with
      | '=' :: rest => (tokenizeAux fuel rest).map (Token.GtEq :: ·)
      | _ => (tokenizeAux fuel cs).map (Token.Gt :: ·)
    else if c == '+' then (tokenizeAux fuel cs).map (Token.Plus :: ·)
    else if c == '-' then (tokenizeAux fuel cs).map (Token.Minus :: ·)
    else if c == '*' then (tokenizeAux fuel cs).map (Token.Asterisk :: ·)
    else if c == '/' then (tokenizeAux fuel cs).map (Token.Slash :: ·)
    else if c == '(' then (tokenizeAux fuel cs).map (Token.LParen :: ·)
    else if c == ')' then (tokenizeAux fuel cs).map (Token.RParen :: ·)
    else if c == '{' then (tokenizeAux fuel cs).map (Token.LBrace :: ·)
    else if c == '}' then (tokenizeAux fuel cs).map (Token.RBrace :: ·)
    else if c == ';' then (tokenizeAux fuel cs).map (Token.SemiColon :: ·)
    else if c == ',' then (tokenizeAux fuel cs).map (Token.Comma :: ·)
    else none

/-- Modelled from the spec: the full token stream of a source string
(without the trailing `Eof`, which the stream model below supplies). -/
def tokenize (input : String) : Option (List Token) :=
  tokenizeAux input.length input.data

/-! ## Parser state -/

/-- `LVar` from `parse.rs` (the symbol-table record). -/
structure LVar where
  name : String
  offset : Nat
  type_ : Ty
deriving DecidableEq, Repr

/-- `Precedence` from `parse.rs`; the derived `PartialOrd` orders the
variants in declaration order. -/
inductive Precedence where
  | Lowest
  | Assignment
  | Equals
  | LessGreater
  | Sum
  | Product
deriving DecidableEq, Repr

/-- Rank realising the derived `PartialOrd` on `Precedence`. -/
def Precedence.rank : Precedence → Nat
  | .Lowest => 0
  | .Assignment => 1
  | .Equals => 2
  | .LessGreater => 3
  | .Sum => 4
  | .Product => 5

/-- The `<` of the derived `PartialOrd` on `Precedence`. -/
def Precedence.lt (a b : Precedence) : Bool :=
  a.rank < b.rank

/-- `Parser` from `parse.rs`.  The lexer component is the list of tokens the
lexer has not yet produced; pulling from an exhausted lexer yields `Eof`
(the spec's "returning `Eof` once at end of input"). -/
structure Parser where
  lexer : List Token
  current_token : Token
  peeked_token : Token
  locals : List LVar
deriving DecidableEq, Repr

/-- `Lexer::next` on the remaining-token model. -/
def lexNext : List Token → Token × List Token
  | [] => (Token.Eof, [])
  | t :: ts => (t, ts)

/-- `Parser::new`: pull two tokens for `current_token` and `peeked_token`. -/
def Parser.new (ts : List Token) : Parser :=
  let (c, l1) := lexNext ts
  let (pk, l2) := lexNext l1
  ⟨l2, c, pk, []⟩

/-- `Parser::next_token`. -/
def next_token (p : Parser) : Parser :=
  let (t, l) := lexNext p.lexer
  ⟨l, p.peeked_token, t, p.locals⟩

/-- `Parser::find_local_var`: first match, scanning front to back. -/
def find_local_var (p : Parser) (name : String) : Option LVar :=
  p.locals.find? (fun s => s.name == name)

/-- `self.locals.last().map(|l| l.offset).unwrap_or(0)`: the offset of the
most recently allocated local, or 0 when the symbol table is empty. -/
def lastOffsetD (l : List LVar) : Nat :=
  ((l.getLast?.map LVar.offset).getD 0)

/-- `Parser::new_local_var`: offset of the new local is the offset of the
last symbol-table entry (0 if none) plus the size of the new local's own
type.  The Rust function returns `Result` but never errs, so the `Ok` is
dropped here. -/
def new_local_var (p : Parser) (type_ : Ty) (name : String) : Expression × Parser :=
  let alloca := sizeof type_
  let offset := lastOffsetD p.locals + alloca
  let v : LVar := ⟨name, offset, type_⟩
  (Expression.LocalVariable name offset type_, { p with locals := p.locals ++ [v] })

/-- `Parser::get_precedence`. -/
def get_precedence : Token → Precedence
  | .Assignment => .Assignment
  | .Eq | .NotEq => .Equals
  | .Lt | .LtEq | .Gt | .GtEq => .LessGreater
  | .Plus | .Minus => .Sum
  | .Slash | .Asterisk => .Product
  | _ => .Lowest

/-- `Parser::peek_precedence`. -/
def peek_precedence (p : Parser) : Precedence :=
  get_precedence p.peeked_token

/-- Error text used when the fuel runs out; no run of the Rust program
corresponds to this outcome. -/
def fuelMsg : String := "fuel exhausted"

/-- The `params.iter().map(|(t, name)| self.new_local_var(..)).collect()`
step of `Parser::parse_function_declaration`: allocate every collected
parameter as a local, in order.  (The Rust `collect::<Result<..>>` never
sees an `Err` because `new_local_var` cannot fail.) -/
def alloc_params : List (Ty × String) → Parser → List Expression × Parser
  | [], p => ([], p)
  | (t, n) :: rest, p =>
    let (e, p) := new_local_var p t n
    let (es, p) := alloc_params rest p
    (e :: es, p)

/-- `Parser::parse_identifier_expression` (not recursive, so no fuel). -/
def parse_identifier_expression (name : String) (p : Parser) :
    Except String (Expression × Parser) :=
  match find_local_var p name with
  | some lv => .ok (Expression.LocalVariable name lv.offset lv.type_, p)
  | none => .error ("Undefined variable: " ++ name)

mutual

/-- `Parser::parse`: loop statements until `Eof` (body in `parse_loop`). -/
def parse (fuel : Nat) (p : Parser) : Except String (Program × Parser) :=
  match fuel with
  | 0 => .error fuelMsg
  | fuel + 1 => parse_loop fuel [] p

/-- The `while self.current_token != Token::Eof` loop of `Parser::parse`. -/
def parse_loop (fuel : Nat) (acc : List Statement) (p : Parser) :
    Except String (Program × Parser) :=
  match fuel with
  | 0 => .error fuelMsg
  | fuel + 1 =>
    if p.current_token == Token.Eof then .ok (⟨acc⟩, p)
    else
      match parse_statement fuel p with
      | .error e => .error e
      | .ok (st, p) => parse_loop fuel (acc ++ [st]) (next_token p)

/-- `Parser::parse_statement`. -/
def parse_statement (fuel : Nat) (p : Parser) : Except String (Statement × Parser) :=
  match fuel with
  | 0 => .error fuelMsg
  | fuel + 1 =>
    match p.current_token with
    | Token.If => parse_if_statement fuel p
    | Token.While => parse_while_statement fuel p
    | Token.For => parse_for_statement fuel p
    | Token.Return => parse_return_statement fuel p
    | Token.LBrace => parse_block_statement fuel p
    | Token.Void | Token.Char | Token.Short | Token.Int
    | Token.Long | Token.Float | Token.Double => parse_typed_declaration fuel p
    | _ => parse_expression_statement fuel p

/-- The body shared by the seven type-keyword arms of
`Parser::parse_statement`: parse the type, require an identifier, and
dispatch on the peeked token between a variable declaration and a function
definition. -/
def parse_typed_declaration (fuel : Nat) (p : Parser) : Except String (Statement × Parser) :=
  match fuel with
  | 0 => .error fuelMsg
  | fuel + 1 =>
    match parse_type fuel p with
    | .error e => .error e
    | .ok (ty, p) =>
      match p.current_token with
      | Token.Identifier name =>
        match p.peeked_token with
        | Token.Assignment | Token.SemiColon =>
          parse_variable_declaration fuel ty name (next_token p)
        | Token.LParen =>
          parse_function_declaration fuel name (next_token p)
        | _ =>
          let d := Token.debug p.current_token
          .error ("expected token \x27=\x27 or \x27(\x27 but got " ++ d)
      | t => .error ("expected identifier but got " ++ Token.debug t)

/-- `Parser::parse_if_statement`. -/
def parse_if_statement (fuel : Nat) (p : Parser) : Except String (Statement × Parser) :=
  match fuel with
  | 0 => .error fuelMsg
  | fuel + 1 =>
    let p := next_token p
    if p.current_token == Token.LParen then
      let p := next_token p
      match parse_expression fuel Precedence.Lowest p with
      | .error e => .error e
      | .ok (condition, p) =>
        if p.peeked_token == Token.RParen then
          let p := next_token (next_token p)
          match parse_statement fuel p with
          | .error e => .error e
          | .ok (consequence, p) =>
            if p.peeked_token == Token.Else then
              let p := next_token (next_token p)
              match parse_statement fuel p with
              | .error e => .error e
              | .ok (alternative, p) =>
                .ok (Statement.If ⟨condition, consequence, some alternative⟩, p)
            else
              .ok (Statement.If ⟨condition, consequence, none⟩, p)
        else
          .error ("expected token \x27)\x27 but got " ++ Token.debug p.peeked_token)
    else
      .error ("expected token \x27(\x27 but got " ++ Token.debug p.current_token)

/-- `Parser::parse_while_statement`. -/
def parse_while_statement (fuel : Nat) (p : Parser) : Except String (Statement × Parser) :=
  match fuel with
  | 0 => .error fuelMsg
  | fuel + 1 =>
    let p := next_token p
    if p.current_token == Token.LParen then
      let p := next_token p
      match parse_expression fuel Precedence.Lowest p with
      | .error e => .error e
      | .ok (condition, p) =>
        if p.peeked_token == Token.RParen then
          let p := next_token (next_token p)
          match parse_statement fuel p with
          | .error e => .error e
          | .ok (body, p) => .ok (Statement.While ⟨condition, body⟩, p)
        else
          .error ("expected token \x27)\x27 but got " ++ Token.debug p.peeked_token)
    else
      .error ("expected token \x27(\x27 but got " ++ Token.debug p.current_token)

/-- `Parser::parse_for_statement`.  Note the `None` branch of the condition
does not consume the second `;` and the `None` branch of the step does not
consume the `)`, exactly as in the source. -/
def parse_for_statement (fuel : Nat) (p : Parser) : Except String (Statement × Parser) :=
  match fuel with
  | 0 => .error fuelMsg
  | fuel + 1 =>
    let p := next_token p
    if p.current_token == Token.LParen then
      let p := next_token p
      let initRes : Except String (Option Statement × Parser) :=
        if p.current_token == Token.SemiColon then .ok (none, p)
        else
          match parse_expression_statement fuel p with
          | .error e => .error e
          | .ok (st, p) => .ok (some st, p)
      match initRes with
      | .error e => .error e
      | .ok (init, p) =>
        let p := next_token p
        let condRes : Except String (Option Expression × Parser) :=
          if p.current_token == Token.SemiColon then .ok (none, p)
          else
            match parse_expression fuel Precedence.Lowest p with
            | .error e => .error e
            | .ok (expr, p) =>
              let p := next_token p
              if p.current_token == Token.SemiColon then .ok (some expr, next_token p)
              else .error ("expected token \x27;\x27 but got " ++ Token.debug p.current_token)
        match condRes with
        | .error e => .error e
        | .ok (condition, p) =>
          let stepRes : Except String (Option Statement × Parser) :=
            if p.current_token == Token.RParen then .ok (none, p)
            else
              match parse_statement fuel p with
              | .error e => .error e
              | .ok (expr, p) =>
                if p.current_token == Token.RParen then .ok (some expr, next_token p)
                else .error ("expected token \x27)\x27 but got " ++ Token.debug p.current_token)
          match stepRes with
          | .error e => .error e
          | .ok (step, p) =>
            match parse_statement fuel p with
            | .error e => .error e
            | .ok (body, p) => .ok (Statement.For ⟨init, condition, step, body⟩, p)
    else
      .error ("expected token \x27(\x27 but got " ++ Token.debug p.current_token)

/-- `Parser::parse_block_statement` (loop body in `parse_block_loop`). -/
def parse_block_statement (fuel : Nat) (p : Parser) : Except String (Statement × Parser) :=
  match fuel with
  | 0 => .error fuelMsg
  | fuel + 1 => parse_block_loop fuel [] (next_token p)

/-- The `while self.current_token != Token::RBrace` loop of
`Parser::parse_block_statement`. -/
def parse_block_loop (fuel : Nat) (acc : List Statement) (p : Parser) :
    Except String (Statement × Parser) :=
  match fuel with
  | 0 => .error fuelMsg
  | fuel + 1 =>
    if p.current_token == Token.RBrace then .ok (Statement.Block acc, p)
    else
      match parse_statement fuel p with
      | .error e => .error e
      | .ok (st, p) => parse_block_loop fuel (acc ++ [st]) (next_token p)

/-- `Parser::parse_return_statement`. -/
def parse_return_statement (fuel : Nat) (p : Parser) : Except String (Statement × Parser) :=
  match fuel with
  | 0 => .error fuelMsg
  | fuel + 1 =>
    let p := next_token p
    match parse_expression fuel Precedence.Lowest p with
    | .error e => .error e
    | .ok (expr, p) =>
      if p.peeked_token == Token.SemiColon then .ok (Statement.Return expr, next_token p)
      else .error ("expected token \x27;\x27 but got " ++ Token.debug p.peeked_token)

/-- `Parser::parse_variable_declaration`.  The source's
`unreachable!()` arm of the offset match cannot fire because
`new_local_var` always builds a `LocalVariable`; the model reads the offset
directly. -/
def parse_variable_declaration (fuel : Nat) (type_ : Ty) (name : String) (p : Parser) :
    Except String (Statement × Parser) :=
  match fuel with
  | 0 => .error fuelMsg
  | fuel + 1 =>
    let (lv, p) := new_local_var p type_ name
    let offset := match lv with
      | Expression.LocalVariable _ o _ => o
      | _ => 0
    let initRes : Except String (Option Expression × Parser) :=
      match p.current_token with
      | Token.SemiColon => .ok (none, p)
      | Token.Assignment =>
        match parse_expression fuel Precedence.Lowest (next_token p) with
        | .error e => .error e
        | .ok (expr, p) => .ok (some expr, p)
      | t => .error ("expected token \x27;\x27 but got " ++ Token.debug t)
    match initRes with
    | .error e => .error e
    | .ok (init_expr, p) =>
      .ok (Statement.InitDeclaration ⟨name, offset, type_, init_expr⟩, next_token p)

/-- `Parser::parse_function_declaration` (parameter-list loop in
`parse_fd_params_loop`). -/
def parse_function_declaration (fuel : Nat) (name : String) (p : Parser) :
    Except String (Statement × Parser) :=
  match fuel with
  | 0 => .error fuelMsg
  | fuel + 1 =>
    match parse_fd_params_loop fuel [] p with
    | .error e => .error e
    | .ok (params, p) =>
      if p.peeked_token == Token.RParen then
        let p := next_token (next_token p)
        let (params, p) := alloc_params params p
        match parse_block_statement fuel p with
        | .error e => .error e
        | .ok (Statement.Block body, p) =>
          .ok (Statement.FunctionDefinition ⟨name, params, body⟩, p)
        | .ok _ => .error "unreachable"
      else
        .error ("expected token \x27)\x27 but got " ++ Token.debug p.peeked_token)

/-- The `while self.peeked_token != Token::RParen` parameter loop of
`Parser::parse_function_declaration`.  Note the error message for a missing
parameter name formats `peeked_token`, as the source does. -/
def parse_fd_params_loop (fuel : Nat) (acc : List (Ty × String)) (p : Parser) :
    Except String (List (Ty × String) × Parser) :=
  match fuel with
  | 0 => .error fuelMsg
  | fuel + 1 =>
    if p.peeked_token == Token.RParen then .ok (acc, p)
    else
      match parse_type fuel (next_token p) with
      | .error e => .error e
      | .ok (type_, p) =>
        match p.current_token with
        | Token.Identifier pname =>
          let p := if p.peeked_token == Token.Comma then next_token p else p
          parse_fd_params_loop fuel (acc ++ [(type_, pname)]) p
        | _ => .error ("expected identifier but got " ++ Token.debug p.peeked_token)

/-- `Parser::parse_expression_statement`.  The expression is accepted when
followed by `;` or by `)`. -/
def parse_expression_statement (fuel : Nat) (p : Parser) :
    Except String (Statement × Parser) :=
  match fuel with
  | 0 => .error fuelMsg
  | fuel + 1 =>
    match parse_expression fuel Precedence.Lowest p with
    | .error e => .error e
    | .ok (expr, p) =>
      if p.peeked_token == Token.SemiColon || p.peeked_token == Token.RParen then
        .ok (Statement.Expression expr, next_token p)
      else
        .error ("expected token \x27;\x27 or \x27)\x27 but got " ++ Token.debug p.peeked_token)

/-- `Parser::parse_expression`: prefix dispatch (`parse_prefix_handler`), then the
infix loop (`parse_expression_loop`). -/
def parse_expression (fuel : Nat) (precedence : Precedence) (p : Parser) :
    Except String (Expression × Parser) :=
  match fuel with
  | 0 => .error fuelMsg
  | fuel + 1 =>
    match parse_prefix_handler fuel p with
    | .error e => .error e
    | .ok (expr, p) => parse_expression_loop fuel precedence expr p

/-- The prefix-handler dispatch of `Parser::parse_expression`: integer
literal, grouped expression, unary minus, call or identifier. -/
def parse_prefix_handler (fuel : Nat) (p : Parser) : Except String (Expression × Parser) :=
  match fuel with
  | 0 => .error fuelMsg
  | fuel + 1 =>
    match p.current_token with
    | Token.Integer n => .ok (Expression.Integer n, p)
    | Token.LParen => parse_grouped_expression fuel p
    | Token.Minus => parse_unary_expression fuel p
    | Token.Identifier name =>
      match p.peeked_token with
      | Token.LParen => parse_call_expression fuel name (next_token p)
      | _ => parse_identifier_expression name p
    | t => .error ("Invalid token: " ++ Token.debug t)

/-- The `while self.peeked_token != Token::Eof && precedence <
self.peek_precedence()` loop of `Parser::parse_expression`.  The `panic!`
arm of the source (a peeked token of higher precedence that is not a binary
operator, which cannot happen) becomes an error. -/
def parse_expression_loop (fuel : Nat) (precedence : Precedence) (expr : Expression)
    (p : Parser) : Except String (Expression × Parser) :=
  match fuel with
  | 0 => .error fuelMsg
  | fuel + 1 =>
    if p.peeked_token != Token.Eof && precedence.lt (peek_precedence p) then
      match p.peeked_token with
      | Token.Assignment | Token.Plus | Token.Minus | Token.Asterisk | Token.Slash
      | Token.Eq | Token.NotEq | Token.Lt | Token.Gt | Token.LtEq | Token.GtEq =>
        match parse_binary_expression fuel expr (next_token p) with
        | .error e => .error e
        | .ok (expr, p) => parse_expression_loop fuel precedence expr p
      | _ => .error "unreachable binary operator"
    else .ok (expr, p)

/-- `Parser::parse_unary_expression`.  The source's `unreachable!()` arm
becomes an error. -/
def parse_unary_expression (fuel : Nat) (p : Parser) : Except String (Expression × Parser) :=
  match fuel with
  | 0 => .error fuelMsg
  | fuel + 1 =>
    match p.current_token with
    | Token.Minus =>
      match parse_expression fuel Precedence.Product (next_token p) with
      | .error e => .error e
      | .ok (expr, p) => .ok (Expression.Unary ⟨expr, UnaryOperator.Minus⟩, p)
    | _ => .error "unreachable"

/-- `Parser::parse_binary_expression`: operator table, with `>` mapped to
`Lt` and `>=` mapped to `LtEq` with swapped operands. -/
def parse_binary_expression (fuel : Nat) (left : Expression) (p : Parser) :
    Except String (Expression × Parser) :=
  match fuel with
  | 0 => .error fuelMsg
  | fuel + 1 =>
    let opRes : Except String (BinaryOperator × Bool) :=
      match p.current_token with
      | Token.Assignment => .ok (BinaryOperator.Assignment, false)
      | Token.Plus => .ok (BinaryOperator.Plus, false)
      | Token.Minus => .ok (BinaryOperator.Minus, false)
      | Token.Asterisk => .ok (BinaryOperator.Asterisk, false)
      | Token.Slash => .ok (BinaryOperator.Slash, false)
      | Token.Lt => .ok (BinaryOperator.Lt, false)
      | Token.Gt => .ok (BinaryOperator.Lt, true)
      | Token.LtEq => .ok (BinaryOperator.LtEq, false)
      | Token.GtEq => .ok (BinaryOperator.LtEq, true)
      | Token.Eq => .ok (BinaryOperator.Eq, false)
      | Token.NotEq => .ok (BinaryOperator.NotEq, false)
      | t => .error ("Expected binary operator, but got " ++ Token.debug t)
    match opRes with
    | .error e => .error e
    | .ok (op, swap) =>
      let precedence := get_precedence p.current_token
      match parse_expression fuel precedence (next_token p) with
      | .error e => .error e
      | .ok (right, p) =>
        -- `if swap { swapped } else { plain }` in the source
        match swap with
        | true => .ok (Expression.Binary ⟨right, op, left⟩, p)
        | false => .ok (Expression.Binary ⟨left, op, right⟩, p)

/-- `Parser::parse_grouped_expression`. -/
def parse_grouped_expression (fuel : Nat) (p : Parser) :
    Except String (Expression × Parser) :=
  match fuel with
  | 0 => .error fuelMsg
  | fuel + 1 =>
    match parse_expression fuel Precedence.Lowest (next_token p) with
    | .error e => .error e
    | .ok (expr, p) =>
      if p.peeked_token != Token.RParen then
        .error ("Expected \x27)\x27, but got " ++ Token.debug p.peeked_token)
      else .ok (expr, next_token p)

/-- `Parser::parse_call_expression` (argument loop in
`parse_call_args_loop`). -/
def parse_call_expression (fuel : Nat) (callee_name : String) (p : Parser) :
    Except String (Expression × Parser) :=
  match fuel with
  | 0 => .error fuelMsg
  | fuel + 1 =>
    match parse_call_args_loop fuel [] p with
    | .error e => .error e
    | .ok (arguments, p) =>
      .ok (Expression.Call ⟨callee_name, arguments⟩, next_token p)

/-- The `while self.peeked_token != Token::RParen` argument loop of
`Parser::parse_call_expression`. -/
def parse_call_args_loop (fuel : Nat) (acc : List Expression) (p : Parser) :
    Except String (List Expression × Parser) :=
  match fuel with
  | 0 => .error fuelMsg
  | fuel + 1 =>
    if p.peeked_token == Token.RParen then .ok (acc, p)
    else
      match parse_expression fuel Precedence.Lowest (next_token p) with
      | .error e => .error e
      | .ok (expr, p) =>
        let p := if p.peeked_token == Token.Comma then next_token p else p
        parse_call_args_loop fuel (acc ++ [expr]) p

/-- `Parser::parse_type` (pointer loop in `parse_type_ptr_loop`). -/
def parse_type (fuel : Nat) (p : Parser) : Except String (Ty × Parser) :=
  match fuel with
  | 0 => .error fuelMsg
  | fuel + 1 =>
    let baseRes : Except String Ty :=
      match p.current_token with
      | Token.Void => .ok (Ty.Primitive TypeEnum.Void)
      | Token.Char => .ok (Ty.Primitive TypeEnum.Char)
      | Token.Short => .ok (Ty.Primitive TypeEnum.Short)
      | Token.Int => .ok (Ty.Primitive TypeEnum.Int)
      | Token.Long => .ok (Ty.Primitive TypeEnum.Long)
      | Token.Float => .ok (Ty.Primitive TypeEnum.Float)
      | Token.Double => .ok (Ty.Primitive TypeEnum.Double)
      | t => .error ("Expected type, but got " ++ Token.debug t)
    match baseRes with
    | .error e => .error e
    | .ok base => parse_type_ptr_loop fuel base (next_token p)

/-- The `while self.current_token == Token::Asterisk` loop of
`Parser::parse_type`. -/
def parse_type_ptr_loop (fuel : Nat) (t : Ty) (p : Parser) :
    Except String (Ty × Parser) :=
  match fuel with
  | 0 => .error fuelMsg
  | fuel + 1 =>
    if p.current_token == Token.Asterisk then
      parse_type_ptr_loop fuel (Ty.Pointer t) (next_token p)
    else .ok (t, p)

end

/-- Fuel that is always sufficient for a token list this size: the parser
advances by at least one token within a bounded number of nested calls. -/
def fuelFor (ts : List Token) : Nat := 32 * (ts.length + 1)

/-- The `parse::parse` entry point (build a parser over the lexed input and
run `Parser::parse`), also exposing the final parser state, which the Rust
`Parser` keeps in `self.locals`. -/
def parseWithState (input : String) : Except String (Program × Parser) :=
  match tokenize input with
  | none => .error "invalid token"
  | some ts => parse (fuelFor ts) (Parser.new ts)

/-- The `parse::parse` entry point, yielding the `Program` alone. -/
def parseProgram (input : String) : Except String Program :=
  (parseWithState input).map Prod.fst

/-- Expression-level entry point matching the repository's own parser tests:
`Parser::new` over the lexed input, then `parse_expression(Lowest)`; only
the resulting AST is kept. -/
def parseExpressionStr (input : String) : Except String Expression :=
  match tokenize input with
  | none => .error "invalid token"
  | some ts => (parse_expression (fuelFor ts) Precedence.Lowest (Parser.new ts)).map Prod.fst

/-! ## Analysis predicates used to state the claims -/

/-- Whether an expression is a `LocalVariable` node. -/
def Expression.isLocalVariable : Expression → Bool
  | .LocalVariable _ _ _ => true
  | _ => false

/-- The offset of a `LocalVariable` node (0 for other nodes). -/
def Expression.localOffset : Expression → Nat
  | .LocalVariable _ o _ => o
  | _ => 0

/-- The name of a `LocalVariable` node (empty for other nodes). -/
def Expression.localName : Expression → String
  | .LocalVariable n _ _ => n
  | _ => ""

/-- The type of a `LocalVariable` node (`void` for other nodes). -/
def Expression.localTy : Expression → Ty
  | .LocalVariable _ _ t => t
  | _ => Ty.Primitive TypeEnum.Void

/-- The size of a `LocalVariable` node's type. -/
def Expression.localSize (e : Expression) : Nat :=
  sizeof e.localTy

/-- `ascFrom a l`: the list `l` is non-decreasing and bounded below by `a`. -/
def ascFrom (a : Nat) : List Nat → Bool
  | [] => true
  | x :: xs => (a ≤ x : Bool) && ascFrom x xs

/-- Non-decreasing list of naturals. -/
def asc : List Nat → Bool
  | [] => true
  | x :: xs => ascFrom x xs

/-- Strictly increasing list of naturals. -/
def ascStrict : List Nat → Bool
  | [] => true
  | [_] => true
  | x :: y :: xs => (x < y : Bool) && ascStrict (y :: xs)

/-- `ascStrictFrom a l`: the list `l` is strictly increasing and strictly
bounded below by `a`. -/
def ascStrictFrom (a : Nat) : List Nat → Bool
  | [] => true
  | x :: xs => (a < x : Bool) && ascStrictFrom x xs

/-- `FunctionDefinition.arguments` shape: every argument is a
`LocalVariable`, the offsets are non-decreasing in order, and they are
strictly increasing whenever every argument's type has nonzero size. -/
def fdArgsGood (args : List Expression) : Bool :=
  args.all Expression.isLocalVariable &&
  asc (args.map Expression.localOffset) &&
  (!(args.all (fun e => e.localSize != 0)) || ascStrict (args.map Expression.localOffset))

mutual
/-- Every `FunctionDefinition` occurring in this statement satisfies
`fdArgsGood`. -/
def Statement.fdGood : Statement → Bool
  | .Expression _ => true
  | .If ⟨_, consequence, alternative⟩ =>
    consequence.fdGood && optStmtFdGood alternative
  | .While ⟨_, body⟩ => body.fdGood
  | .For ⟨init, _, post, body⟩ =>
    optStmtFdGood init && optStmtFdGood post && body.fdGood
  | .Block stmts => stmtsFdGood stmts
  | .Return _ => true
  | .FunctionDefinition ⟨_, arguments, body⟩ =>
    fdArgsGood arguments && stmtsFdGood body
  | .InitDeclaration _ => true
/-- `Statement.fdGood` on an optional statement. -/
def optStmtFdGood : Option Statement → Bool
  | none => true
  | some s => s.fdGood
/-- `Statement.fdGood` on every statement of a list. -/
def stmtsFdGood : List Statement → Bool
  | [] => true
  | s :: ss => s.fdGood && stmtsFdGood ss
end

/-- The symbol-table discipline of `new_local_var`: starting from previous
offset `a`, each entry's offset is the previous entry's offset plus the
size of the entry's own type. -/
def localsChainedFrom (a : Nat) : List LVar → Bool
  | [] => true
  | v :: vs => (v.offset == a + sizeof v.type_) && localsChainedFrom v.offset vs

/-- `localsChainedFrom` starting at offset 0 (the empty symbol table). -/
def localsChained (l : List LVar) : Bool :=
  localsChainedFrom 0 l

/-! ## Helper lemmas about the symbol-table discipline -/

@[simp]
theorem next_token_locals (p : Parser) : (next_token p).locals = p.locals := by
  simp [next_token]

theorem stmtsFdGood_append (acc : List Statement) (st : Statement) :
    stmtsFdGood (acc ++ [st]) = (stmtsFdGood acc && st.fdGood) := by
  induction acc with
  | nil => simp [stmtsFdGood]
  | cons s ss ih => simp [stmtsFdGood, ih, Bool.and_assoc]

theorem ascFrom_imp_asc (a : Nat) (l : List Nat) (h : ascFrom a l = true) :
    asc l = true := by
  cases l with
  | nil => rfl
  | cons x xs =>
    simp only [ascFrom, Bool.and_eq_true] at h
    exact h.2

theorem ascStrictFrom_imp_ascStrict (a : Nat) (l : List Nat)
    (h : ascStrictFrom a l = true) : ascStrict l = true := by
  induction l generalizing a with
  | nil => rfl
  | cons x xs ih =>
    simp only [ascStrictFrom, Bool.and_eq_true] at h
    cases xs with
    | nil => rfl
    | cons y ys =>
      have h2 := h.2
      simp only [ascStrictFrom, Bool.and_eq_true] at h2
      simp only [ascStrict, Bool.and_eq_true]
      exact ⟨by simpa using h2.1, ih x (by simp only [ascStrictFrom, Bool.and_eq_true]; exact h2)⟩

/-- Offset of the last entry of `l`, or `a` when `l` is empty (recursive
form, convenient for induction). -/
def lastOffsetFrom (a : Nat) : List LVar → Nat
  | [] => a
  | v :: vs => lastOffsetFrom v.offset vs

theorem lastOffsetFrom_eq_getLast (a : Nat) (l : List LVar) :
    lastOffsetFrom a l = ((l.getLast?.map LVar.offset).getD a) := by
  induction l generalizing a with
  | nil => rfl
  | cons x xs ih =>
    cases xs with
    | nil => simp [lastOffsetFrom, List.getLast?_singleton]
    | cons y ys =>
      rw [List.getLast?_cons_cons]
      exact ih x.offset

theorem lastOffsetD_eq (l : List LVar) : lastOffsetD l = lastOffsetFrom 0 l := by
  rw [lastOffsetFrom_eq_getLast]; rfl

/-- Appending an entry whose offset follows `new_local_var`'s rule keeps
the symbol table chained. -/
theorem localsChainedFrom_concat (l : List LVar) (a : Nat) (n : String) (t : Ty)
    (h : localsChainedFrom a l = true) :
    localsChainedFrom a
      (l ++ [⟨n, lastOffsetFrom a l + sizeof t, t⟩]) = true := by
  induction l generalizing a with
  | nil => simp [localsChainedFrom, lastOffsetFrom]
  | cons x xs ih =>
    simp only [localsChainedFrom, Bool.and_eq_true] at h
    simp only [List.cons_append, localsChainedFrom, Bool.and_eq_true]
    exact ⟨h.1, ih x.offset h.2⟩

theorem new_local_var_snd_locals (p : Parser) (t : Ty) (n : String) :
    (new_local_var p t n).2.locals =
      p.locals ++ [⟨n, lastOffsetD p.locals + sizeof t, t⟩] := by
  simp [new_local_var]

theorem new_local_var_chained (p : Parser) (t : Ty) (n : String)
    (h : localsChained p.locals = true) :
    localsChained (new_local_var p t n).2.locals = true := by
  rw [new_local_var_snd_locals]
  have := localsChainedFrom_concat p.locals 0 n t h
  rwa [← lastOffsetD_eq] at this

/-- `alloc_params` produces only `LocalVariable` arguments whose offsets
are non-decreasing (bounded below by the previous last offset), and keeps
the symbol table chained. -/
theorem alloc_params_inv (ps : List (Ty × String)) (p : Parser) :
    (alloc_params ps p).1.all Expression.isLocalVariable = true ∧
    ascFrom (lastOffsetD p.locals)
      ((alloc_params ps p).1.map Expression.localOffset) = true ∧
    (localsChained p.locals = true →
      localsChained (alloc_params ps p).2.locals = true) := by
  induction ps generalizing p with
  | nil => simp [alloc_params, ascFrom]
  | cons d rest ih =>
    obtain ⟨t, n⟩ := d
    have hLoc : (new_local_var p t n).2.locals =
        p.locals ++ [⟨n, lastOffsetD p.locals + sizeof t, t⟩] :=
      new_local_var_snd_locals p t n
    have hLast : lastOffsetD (new_local_var p t n).2.locals =
        lastOffsetD p.locals + sizeof t := by
      rw [hLoc]; simp [lastOffsetD, List.getLast?_concat]
    obtain ⟨ih1, ih2, ih3⟩ := ih (new_local_var p t n).2
    refine ⟨?_, ?_, ?_⟩
    · simp only [alloc_params, new_local_var, List.all_cons, Bool.and_eq_true]
      exact ⟨rfl, by simpa [new_local_var] using ih1⟩
    · simp only [alloc_params, new_local_var, List.map_cons, ascFrom, Bool.and_eq_true]
      constructor
      · simp [Expression.localOffset]
      · have := ih2
        rw [hLast] at this
        simpa [new_local_var, Expression.localOffset] using this
    · intro hch
      have h1 : localsChained (new_local_var p t n).2.locals = true :=
        new_local_var_chained p t n hch
      have := ih3 h1
      simpa [alloc_params, new_local_var] using this

/-- `alloc_params` keeps the source order of the parameter list: the k-th
argument is a `LocalVariable` carrying the k-th parameter's name and its
declared type. -/
theorem alloc_params_names_tys (ps : List (Ty × String)) (p : Parser) :
    (alloc_params ps p).1.map Expression.localName = ps.map Prod.snd ∧
    (alloc_params ps p).1.map Expression.localTy = ps.map Prod.fst := by
  induction ps generalizing p with
  | nil => simp [alloc_params]
  | cons d rest ih =>
    obtain ⟨t, n⟩ := d
    obtain ⟨ih1, ih2⟩ := ih (new_local_var p t n).2
    constructor
    · simp only [alloc_params, new_local_var, List.map_cons, Expression.localName]
      refine congrArg (n :: ·) ?_
      simpa [new_local_var] using ih1
    · simp only [alloc_params, new_local_var, List.map_cons, Expression.localTy]
      refine congrArg (t :: ·) ?_
      simpa [new_local_var] using ih2

/-- When every parameter's type has nonzero size, the offsets produced by
`alloc_params` are strictly increasing (strictly above the previous last
offset). -/
theorem alloc_params_strict (ps : List (Ty × String)) (p : Parser)
    (h : (alloc_params ps p).1.all (fun e => e.localSize != 0) = true) :
    ascStrictFrom (lastOffsetD p.locals)
      ((alloc_params ps p).1.map Expression.localOffset) = true := by
  induction ps generalizing p with
  | nil => rfl
  | cons d rest ih =>
    obtain ⟨t, n⟩ := d
    have hLast : lastOffsetD (new_local_var p t n).2.locals =
        lastOffsetD p.locals + sizeof t := by
      rw [new_local_var_snd_locals]
      simp [lastOffsetD, List.getLast?_concat]
    simp only [alloc_params, new_local_var, List.all_cons, Bool.and_eq_true] at h
    obtain ⟨hsz, hrest⟩ := h
    have hszt : sizeof t ≠ 0 := by
      simpa [Expression.localSize, Expression.localTy] using hsz
    simp only [alloc_params, new_local_var, List.map_cons, ascStrictFrom,
      Bool.and_eq_true]
    constructor
    · simp only [Expression.localOffset, decide_eq_true_eq]
      exact Nat.lt_add_of_pos_right (Nat.pos_of_ne_zero hszt)
    · have := ih (new_local_var p t n).2 (by simpa [new_local_var] using hrest)
      rw [hLast] at this
      simpa [new_local_var, Expression.localOffset] using this

theorem parse_identifier_expression_locals (name : String) (p : Parser)
    (r : Expression) (p' : Parser)
    (h : parse_identifier_expression name p = .ok (r, p')) : p'.locals = p.locals := by
  unfold parse_identifier_expression at h
  split at h
  · cases h
    rfl
  · exact Except.noConfusion h

/-- Symbol-table preservation: a chained symbol table stays chained. -/
def localsPres (p q : Parser) : Prop :=
  localsChained p.locals = true → localsChained q.locals = true

/-- The parser invariant, proved for every fuel by induction: expression-
and type-level functions do not touch the symbol table; statement-level
functions keep it chained and only produce statements whose
`FunctionDefinition`s have well-formed argument lists. -/
structure ParserInv (fuel : Nat) : Prop where
  expr : ∀ prec p r p', parse_expression fuel prec p = .ok (r, p') →
    p'.locals = p.locals
  pre : ∀ p r p', parse_prefix_handler fuel p = .ok (r, p') →
    p'.locals = p.locals
  exprLoop : ∀ prec e₀ p r p', parse_expression_loop fuel prec e₀ p = .ok (r, p') →
    p'.locals = p.locals
  unary : ∀ p r p', parse_unary_expression fuel p = .ok (r, p') →
    p'.locals = p.locals
  binary : ∀ l p r p', parse_binary_expression fuel l p = .ok (r, p') →
    p'.locals = p.locals
  grouped : ∀ p r p', parse_grouped_expression fuel p = .ok (r, p') →
    p'.locals = p.locals
  call : ∀ nm p r p', parse_call_expression fuel nm p = .ok (r, p') →
    p'.locals = p.locals
  callArgs : ∀ acc p r p', parse_call_args_loop fuel acc p = .ok (r, p') →
    p'.locals = p.locals
  ty : ∀ p r p', parse_type fuel p = .ok (r, p') → p'.locals = p.locals
  tyPtr : ∀ t p r p', parse_type_ptr_loop fuel t p = .ok (r, p') →
    p'.locals = p.locals
  fdParams : ∀ acc p r p', parse_fd_params_loop fuel acc p = .ok (r, p') →
    p'.locals = p.locals
  exprStmt : ∀ p st p', parse_expression_statement fuel p = .ok (st, p') →
    p'.locals = p.locals ∧ st.fdGood = true
  returnS : ∀ p st p', parse_return_statement fuel p = .ok (st, p') →
    p'.locals = p.locals ∧ st.fdGood = true
  varDecl : ∀ t nm p st p', parse_variable_declaration fuel t nm p = .ok (st, p') →
    localsPres p p' ∧ st.fdGood = true
  funcDecl : ∀ nm p st p', parse_function_declaration fuel nm p = .ok (st, p') →
    localsPres p p' ∧ st.fdGood = true
  ifS : ∀ p st p', parse_if_statement fuel p = .ok (st, p') →
    localsPres p p' ∧ st.fdGood = true
  whileS : ∀ p st p', parse_while_statement fuel p = .ok (st, p') →
    localsPres p p' ∧ st.fdGood = true
  forS : ∀ p st p', parse_for_statement fuel p = .ok (st, p') →
    localsPres p p' ∧ st.fdGood = true
  blockS : ∀ p st p', parse_block_statement fuel p = .ok (st, p') →
    localsPres p p' ∧ st.fdGood = true
  blockLoop : ∀ acc p st p', parse_block_loop fuel acc p = .ok (st, p') →
    localsPres p p' ∧ (stmtsFdGood acc = true → st.fdGood = true)
  typedDecl : ∀ p st p', parse_typed_declaration fuel p = .ok (st, p') →
    localsPres p p' ∧ st.fdGood = true
  stmt : ∀ p st p', parse_statement fuel p = .ok (st, p') →
    localsPres p p' ∧ st.fdGood = true
  parseLoop : ∀ acc p r p', parse_loop fuel acc p = .ok (r, p') →
    localsPres p p' ∧ (stmtsFdGood acc = true → stmtsFdGood r.statements = true)
  parseAll : ∀ p r p', parse fuel p = .ok (r, p') →
    localsPres p p' ∧ stmtsFdGood r.statements = true

theorem parserInv (fuel : Nat) : ParserInv fuel := by
  induction fuel with
  | zero =>
    exact {
      expr := fun _ _ _ _ h => Except.noConfusion h
      pre := fun _ _ _ h => Except.noConfusion h
      exprLoop := fun _ _ _ _ _ h => Except.noConfusion h
      unary := fun _ _ _ h => Except.noConfusion h
      binary := fun _ _ _ _ h => Except.noConfusion h
      grouped := fun _ _ _ h => Except.noConfusion h
      call := fun _ _ _ _ h => Except.noConfusion h
      callArgs := fun _ _ _ _ h => Except.noConfusion h
      ty := fun _ _ _ h => Except.noConfusion h
      tyPtr := fun _ _ _ _ h => Except.noConfusion h
      fdParams := fun _ _ _ _ h => Except.noConfusion h
      exprStmt := fun _ _ _ h => Except.noConfusion h
      returnS := fun _ _ _ h => Except.noConfusion h
      varDecl := fun _ _ _ _ _ h => Except.noConfusion h
      funcDecl := fun _ _ _ _ h => Except.noConfusion h
      ifS := fun _ _ _ h => Except.noConfusion h
      whileS := fun _ _ _ h => Except.noConfusion h
      forS := fun _ _ _ h => Except.noConfusion h
      blockS := fun _ _ _ h => Except.noConfusion h
      blockLoop := fun _ _ _ _ h => Except.noConfusion h
      typedDecl := fun _ _ _ h => Except.noConfusion h
      stmt := fun _ _ _ h => Except.noConfusion h
      parseLoop := fun _ _ _ _ h => Except.noConfusion h
      parseAll := fun _ _ _ h => Except.noConfusion h }
  | succ fuel ih =>
    refine { expr := ?_, pre := ?_, exprLoop := ?_, unary := ?_, binary := ?_,
             grouped := ?_,
             call := ?_, callArgs := ?_, ty := ?_, tyPtr := ?_, fdParams := ?_,
             exprStmt := ?_, returnS := ?_, varDecl := ?_, funcDecl := ?_,
             ifS := ?_, whileS := ?_, forS := ?_, blockS := ?_, blockLoop := ?_,
             typedDecl := ?_, stmt := ?_, parseLoop := ?_, parseAll := ?_ }
    · -- parse_expression
      intro prec p r p' h
      simp only [parse_expression] at h
      cases hP : parse_prefix_handler fuel p with
      | error e => rw [hP] at h; exact Except.noConfusion h
      | ok res =>
        obtain ⟨e₀, p₀⟩ := res
        rw [hP] at h
        rw [ih.exprLoop _ _ _ _ _ h]
        exact ih.pre _ _ _ hP
    · -- parse_prefix_handler
      intro p r p' h
      simp only [parse_prefix_handler] at h
      revert h
      cases p.current_token <;> intro h
      all_goals try exact Except.noConfusion h
      · cases h; rfl
      · revert h
        cases p.peeked_token <;> intro h
        all_goals try exact parse_identifier_expression_locals _ _ _ _ h
        · rw [ih.call _ _ _ _ h]; simp
      · exact ih.unary _ _ _ h
      · exact ih.grouped _ _ _ h
    · -- parse_expression_loop
      intro prec e₀ p r p' h
      simp only [parse_expression_loop] at h
      split at h
      · revert h
        cases p.peeked_token <;> intro h
        all_goals try exact Except.noConfusion h
        all_goals
          cases hB : parse_binary_expression fuel e₀ (next_token p) with
          | error e => rw [hB] at h; exact Except.noConfusion h
          | ok res =>
            obtain ⟨e₁, p₁⟩ := res
            rw [hB] at h
            rw [ih.exprLoop _ _ _ _ _ h, ih.binary _ _ _ _ hB]
            simp
      · cases h; rfl
    · -- parse_unary_expression
      intro p r p' h
      simp only [parse_unary_expression] at h
      split at h
      · cases hE : parse_expression fuel Precedence.Product (next_token p) with
        | error e => rw [hE] at h; exact Except.noConfusion h
        | ok res =>
          obtain ⟨e₁, p₁⟩ := res
          rw [hE] at h
          cases h
          rw [ih.expr _ _ _ _ hE]
          simp
      · exact Except.noConfusion h
    · -- parse_binary_expression
      intro l p r p' h
      simp only [parse_binary_expression] at h
      split at h
      · exact Except.noConfusion h
      · rename_i op swap heq
        split at h
        · exact Except.noConfusion h
        · rename_i right p₁ hE
          have hloc := ih.expr _ _ _ _ hE
          cases swap
          · cases h; rw [hloc]; simp
          · cases h; rw [hloc]; simp
    · -- parse_grouped_expression
      intro p r p' h
      simp only [parse_grouped_expression] at h
      split at h
      · exact Except.noConfusion h
      · rename_i e₁ p₁ hE
        split at h
        · exact Except.noConfusion h
        · cases h
          rw [show (next_token p₁).locals = p₁.locals from rfl, ih.expr _ _ _ _ hE]
          simp
    · -- parse_call_expression
      intro nm p r p' h
      simp only [parse_call_expression] at h
      cases hA : parse_call_args_loop fuel [] p with
      | error e => rw [hA] at h; exact Except.noConfusion h
      | ok res =>
        obtain ⟨args, p₁⟩ := res
        rw [hA] at h
        cases h
        rw [show (next_token p₁).locals = p₁.locals from rfl, ih.callArgs _ _ _ _ hA]
    · -- parse_call_args_loop
      intro acc p r p' h
      simp only [parse_call_args_loop] at h
      split at h
      · cases h; rfl
      · cases hE : parse_expression fuel Precedence.Lowest (next_token p) with
        | error e => rw [hE] at h; exact Except.noConfusion h
        | ok res =>
          obtain ⟨e₁, p₁⟩ := res
          rw [hE] at h
          rw [ih.callArgs _ _ _ _ h]
          have hloc := ih.expr _ _ _ _ hE
          split <;> simp [hloc]
    · -- parse_type
      intro p r p' h
      simp only [parse_type] at h
      split at h
      · exact Except.noConfusion h
      · rw [ih.tyPtr _ _ _ _ h]; simp
    · -- parse_type_ptr_loop
      intro t p r p' h
      simp only [parse_type_ptr_loop] at h
      split at h
      · rw [ih.tyPtr _ _ _ _ h]; simp
      · cases h; rfl
    · -- parse_fd_params_loop
      intro acc p r p' h
      simp only [parse_fd_params_loop] at h
      split at h
      · cases h; rfl
      · split at h
        · exact Except.noConfusion h
        · rename_i ty₁ p₁ hT
          split at h
          · rw [ih.fdParams _ _ _ _ h]
            have hloc := ih.ty _ _ _ hT
            split <;> simp [hloc]
          · exact Except.noConfusion h
    · -- parse_expression_statement
      intro p st p' h
      simp only [parse_expression_statement] at h
      split at h
      · exact Except.noConfusion h
      · rename_i e₁ p₁ hE
        split at h
        · cases h
          exact ⟨by rw [show (next_token p₁).locals = p₁.locals from rfl,
                   ih.expr _ _ _ _ hE], by simp [Statement.fdGood]⟩
        · exact Except.noConfusion h
    · -- parse_return_statement
      intro p st p' h
      simp only [parse_return_statement] at h
      split at h
      · exact Except.noConfusion h
      · rename_i e₁ p₁ hE
        split at h
        · cases h
          refine ⟨?_, by simp [Statement.fdGood]⟩
          rw [show (next_token p₁).locals = p₁.locals from rfl, ih.expr _ _ _ _ hE]
          simp
        · exact Except.noConfusion h
    · -- parse_variable_declaration
      intro t nm p st p' h
      simp only [parse_variable_declaration] at h
      split at h
      · exact Except.noConfusion h
      · rename_i init_expr p₂ heq2
        cases h
        refine ⟨?_, by simp [Statement.fdGood]⟩
        intro hch
        have hch₁ : localsChained (new_local_var p t nm).2.locals = true :=
          new_local_var_chained p t nm hch
        split at heq2
        · cases heq2
          simpa using hch₁
        · split at heq2
          · exact Except.noConfusion heq2
          · rename_i e₂ p₃ heq3
            cases heq2
            have hloc := ih.expr _ _ _ _ heq3
            simp only [next_token_locals] at hloc ⊢
            rw [hloc]
            exact hch₁
        · exact Except.noConfusion heq2
    · -- parse_function_declaration
      intro nm p st p' h
      simp only [parse_function_declaration] at h
      split at h
      · exact Except.noConfusion h
      · rename_i params p₁ hP
        split at h
        · split at h
          · exact Except.noConfusion h
          · rename_i body p₃ hB
            cases h
            have hfd := ih.blockS _ _ _ hB
            obtain ⟨hall, hasc, hchain⟩ :=
              alloc_params_inv params (next_token (next_token p₁))
            constructor
            · intro hch
              refine hfd.1 (hchain ?_)
              simp only [next_token_locals]
              rw [ih.fdParams _ _ _ _ hP]
              exact hch
            · have hbody : stmtsFdGood body = true := by
                simpa [Statement.fdGood] using hfd.2
              have hargs : fdArgsGood
                  (alloc_params params (next_token (next_token p₁))).1 = true := by
                unfold fdArgsGood
                rw [hall]
                have h1 := ascFrom_imp_asc _ _ hasc
                cases hall2 : (alloc_params params (next_token (next_token p₁))).1.all
                    (fun e => e.localSize != 0) with
                | false => simp [h1, hall2]
                | true =>
                  have h2 := ascStrictFrom_imp_ascStrict _ _
                    (alloc_params_strict params (next_token (next_token p₁)) hall2)
                  simp [h1, h2, hall2]
              simp [Statement.fdGood, hargs, hbody]
          · exact Except.noConfusion h
        · exact Except.noConfusion h
    · -- parse_if_statement
      intro p st p' h
      simp only [parse_if_statement] at h
      split at h
      · split at h
        · exact Except.noConfusion h
        · rename_i cond p₁ hC
          split at h
          · split at h
            · exact Except.noConfusion h
            · rename_i cons p₂ hS
              have i1 := ih.expr _ _ _ _ hC
              have i2 := ih.stmt _ _ _ hS
              split at h
              · split at h
                · exact Except.noConfusion h
                · rename_i alt p₃ hS2
                  cases h
                  have i3 := ih.stmt _ _ _ hS2
                  constructor
                  · intro hch
                    apply i3.1
                    simp only [next_token_locals]
                    apply i2.1
                    simp only [next_token_locals]
                    rw [i1]
                    simpa using hch
                  · simp [Statement.fdGood, optStmtFdGood, i2.2, i3.2]
              · cases h
                constructor
                · intro hch
                  apply i2.1
                  simp only [next_token_locals]
                  rw [i1]
                  simpa using hch
                · simp [Statement.fdGood, optStmtFdGood, i2.2]
          · exact Except.noConfusion h
      · exact Except.noConfusion h
    · -- parse_while_statement
      intro p st p' h
      simp only [parse_while_statement] at h
      split at h
      · split at h
        · exact Except.noConfusion h
        · rename_i cond p₁ hC
          split at h
          · split at h
            · exact Except.noConfusion h
            · rename_i body p₂ hS
              cases h
              have i1 := ih.expr _ _ _ _ hC
              have i2 := ih.stmt _ _ _ hS
              constructor
              · intro hch
                apply i2.1
                simp only [next_token_locals]
                rw [i1]
                simpa using hch
              · simp [Statement.fdGood, i2.2]
          · exact Except.noConfusion h
      · exact Except.noConfusion h
    · -- parse_for_statement
      intro p st p' h
      simp only [parse_for_statement] at h
      split at h
      · split at h
        · exact Except.noConfusion h
        · rename_i init pA heqI
          split at h
          · exact Except.noConfusion h
          · rename_i condition pC heqC
            split at h
            · exact Except.noConfusion h
            · rename_i step pD heqS
              cases hBody : parse_statement fuel pD with
              | error e => rw [hBody] at h; exact Except.noConfusion h
              | ok res =>
                obtain ⟨body, pE⟩ := res
                rw [hBody] at h
                cases h
                have hInit : optStmtFdGood init = true ∧
                    pA.locals = (next_token (next_token p)).locals := by
                  split at heqI
                  · cases heqI; exact ⟨by simp [optStmtFdGood], rfl⟩
                  · split at heqI
                    · exact Except.noConfusion heqI
                    · rename_i st₀ pX heqX
                      cases heqI
                      have := ih.exprStmt _ _ _ heqX
                      exact ⟨by simp [optStmtFdGood, this.2], this.1⟩
                have hCond : pC.locals = (next_token pA).locals := by
                  split at heqC
                  · cases heqC; rfl
                  · split at heqC
                    · exact Except.noConfusion heqC
                    · rename_i e₁ pY heqY
                      split at heqC
                      · cases heqC
                        simpa using ih.expr _ _ _ _ heqY
                      · exact Except.noConfusion heqC
                have hStep : optStmtFdGood step = true ∧ localsPres pC pD := by
                  split at heqS
                  · cases heqS; exact ⟨by simp [optStmtFdGood], fun hh => hh⟩
                  · split at heqS
                    · exact Except.noConfusion heqS
                    · rename_i st₁ pZ heqZ
                      split at heqS
                      · cases heqS
                        have := ih.stmt _ _ _ heqZ
                        refine ⟨by simp [optStmtFdGood, this.2], ?_⟩
                        intro hh
                        simpa using this.1 hh
                      · exact Except.noConfusion heqS
                have hB := ih.stmt _ _ _ hBody
                constructor
                · intro hch
                  apply hB.1
                  apply hStep.2
                  rw [hCond]
                  simp only [next_token_locals]
                  rw [hInit.2]
                  simpa using hch
                · simp [Statement.fdGood, hInit.1, hStep.1, hB.2]
      · exact Except.noConfusion h
    · -- parse_block_statement
      intro p st p' h
      simp only [parse_block_statement] at h
      have := ih.blockLoop _ _ _ _ h
      exact ⟨fun hch => this.1 (by simpa using hch), this.2 (by simp [stmtsFdGood])⟩
    · -- parse_block_loop
      intro acc p st p' h
      simp only [parse_block_loop] at h
      split at h
      · cases h
        exact ⟨fun hh => hh, fun hacc => by simpa [Statement.fdGood] using hacc⟩
      · cases hS : parse_statement fuel p with
        | error e => rw [hS] at h; exact Except.noConfusion h
        | ok res =>
          obtain ⟨st₁, p₁⟩ := res
          rw [hS] at h
          have hrec := ih.blockLoop _ _ _ _ h
          have hstmt := ih.stmt _ _ _ hS
          exact ⟨fun hch => hrec.1 (by simpa using hstmt.1 hch),
                 fun hacc => hrec.2 (by rw [stmtsFdGood_append]; simp [hacc, hstmt.2])⟩
    · -- parse_typed_declaration
      intro p st p' h
      simp only [parse_typed_declaration] at h
      split at h
      · exact Except.noConfusion h
      · rename_i ty₁ p₁ hT
        split at h
        · rename_i name
          split at h
          · have := ih.varDecl _ _ _ _ _ h
            refine ⟨?_, this.2⟩
            intro hch
            apply this.1
            simp only [next_token_locals]
            rw [ih.ty _ _ _ hT]
            exact hch
          · have := ih.varDecl _ _ _ _ _ h
            refine ⟨?_, this.2⟩
            intro hch
            apply this.1
            simp only [next_token_locals]
            rw [ih.ty _ _ _ hT]
            exact hch
          · have := ih.funcDecl _ _ _ _ h
            refine ⟨?_, this.2⟩
            intro hch
            apply this.1
            simp only [next_token_locals]
            rw [ih.ty _ _ _ hT]
            exact hch
          · exact Except.noConfusion h
        · exact Except.noConfusion h
    · -- parse_statement
      intro p st p' h
      simp only [parse_statement] at h
      split at h
      · exact ih.ifS _ _ _ h
      · exact ih.whileS _ _ _ h
      · exact ih.forS _ _ _ h
      · exact ⟨fun hch => by rw [(ih.returnS _ _ _ h).1]; exact hch,
               (ih.returnS _ _ _ h).2⟩
      · exact ih.blockS _ _ _ h
      · exact ih.typedDecl _ _ _ h
      · exact ih.typedDecl _ _ _ h
      · exact ih.typedDecl _ _ _ h
      · exact ih.typedDecl _ _ _ h
      · exact ih.typedDecl _ _ _ h
      · exact ih.typedDecl _ _ _ h
      · exact ih.typedDecl _ _ _ h
      · exact ⟨fun hch => by rw [(ih.exprStmt _ _ _ h).1]; exact hch,
               (ih.exprStmt _ _ _ h).2⟩
    · -- parse_loop
      intro acc p r p' h
      simp only [parse_loop] at h
      split at h
      · cases h; exact ⟨fun hh => hh, fun hacc => hacc⟩
      · cases hS : parse_statement fuel p with
        | error e => rw [hS] at h; exact Except.noConfusion h
        | ok res =>
          obtain ⟨st₁, p₁⟩ := res
          rw [hS] at h
          have hrec := ih.parseLoop _ _ _ _ h
          have hstmt := ih.stmt _ _ _ hS
          exact ⟨fun hch => hrec.1 (by simpa using hstmt.1 hch),
                 fun hacc => hrec.2 (by rw [stmtsFdGood_append]; simp [hacc, hstmt.2])⟩
    · -- parse
      intro p r p' h
      simp only [parse] at h
      have := ih.parseLoop _ _ _ _ h
      exact ⟨this.1, this.2 (by simp [stmtsFdGood])⟩

/-! ## Simulation infrastructure for parenthesisation invariance

To prove that wrapping an expression in parentheses leaves the AST
unchanged, we show that the expression part of the parser cannot tell a
stream that simply ends (the lexer then pads with `Eof`) from a stream that
continues with `)` — the two tokens on which every expression-level loop
stops.  `wrapState` maps a parser state of the first kind to the
corresponding state of the second kind. -/

/-- The stream of a parser state contains no `Eof` token: none in the
lexer, and a peeked `Eof` only when the lexer is exhausted.  This holds for
every state built from a lexed token list and is preserved by
`next_token`. -/
def NoEof (s : Parser) : Prop :=
  Token.Eof ∉ s.lexer ∧ (s.peeked_token = Token.Eof → s.lexer = [])

/-- The state `s` has consumed its whole stream: the next pull is `Eof`. -/
def atEnd (s : Parser) : Prop :=
  s.lexer = [] ∧ s.peeked_token = Token.Eof

instance (s : Parser) : Decidable (atEnd s) := by
  unfold atEnd; infer_instance

/-- The same parser state inside one extra pair of parentheses: the tokens
`)` followed by `rest` come after the end of `s`'s stream. -/
def wrapState (rest : List Token) (s : Parser) : Parser :=
  match s.lexer, s.peeked_token with
  | [], Token.Eof => ⟨rest, s.current_token, Token.RParen, s.locals⟩
  | _, _ => ⟨s.lexer ++ Token.RParen :: rest, s.current_token, s.peeked_token, s.locals⟩

theorem wrapState_current (rest : List Token) (s : Parser) :
    (wrapState rest s).current_token = s.current_token := by
  unfold wrapState; split <;> rfl

theorem wrapState_locals (rest : List Token) (s : Parser) :
    (wrapState rest s).locals = s.locals := by
  unfold wrapState; split <;> rfl

theorem wrapState_of_atEnd (rest : List Token) (s : Parser) (h : atEnd s) :
    wrapState rest s = ⟨rest, s.current_token, Token.RParen, s.locals⟩ := by
  unfold wrapState
  rw [h.1, h.2]

theorem wrapState_peek_of_not_atEnd (rest : List Token) (s : Parser) (h : ¬ atEnd s) :
    (wrapState rest s).peeked_token = s.peeked_token := by
  unfold wrapState
  split
  · rename_i h1 h2
    exact absurd ⟨h1, h2⟩ h
  · rfl

theorem NoEof_next (s : Parser) (h : NoEof s) : NoEof (next_token s) := by
  obtain ⟨h1, h2⟩ := h
  cases hl : s.lexer with
  | nil =>
    refine ⟨by simp [next_token, lexNext, hl], ?_⟩
    intro _
    simp [next_token, lexNext, hl]
  | cons t ts =>
    rw [hl] at h1
    refine ⟨?_, ?_⟩
    · intro hmem
      exact h1 (by simp [next_token, lexNext, hl] at hmem; simp [hmem])
    · intro hp
      simp [next_token, lexNext, hl] at hp
      exact absurd (hp ▸ List.mem_cons_self t ts) h1

theorem wrap_next (rest : List Token) (s : Parser) (hno : NoEof s) (h : ¬ atEnd s) :
    wrapState rest (next_token s) = next_token (wrapState rest s) := by
  cases hl : s.lexer with
  | nil =>
    have hp : s.peeked_token ≠ Token.Eof := fun hpe => h ⟨hl, hpe⟩
    have hw : wrapState rest s = ⟨Token.RParen :: rest, s.current_token,
        s.peeked_token, s.locals⟩ := by
      unfold wrapState
      split
      · rename_i h1 h2
        exact absurd ⟨h1, h2⟩ h
      · rw [hl]; rfl
    rw [hw]
    have hn : next_token s = ⟨[], s.peeked_token, Token.Eof, s.locals⟩ := by
      simp [next_token, lexNext, hl]
    rw [hn]
    unfold wrapState next_token lexNext
    simp
  | cons t ts =>
    have ht : t ≠ Token.Eof := fun he => hno.1 (by rw [hl, he]; exact List.mem_cons_self _ _)
    have hw : wrapState rest s = ⟨(t :: ts) ++ Token.RParen :: rest, s.current_token,
        s.peeked_token, s.locals⟩ := by
      unfold wrapState
      split
      · rename_i h1 _
        rw [hl] at h1
        exact absurd h1 (by simp)
      · rw [hl]
    rw [hw]
    have hn : next_token s = ⟨ts, s.peeked_token, t, s.locals⟩ := by
      simp [next_token, lexNext, hl]
    rw [hn]
    have hwn : wrapState rest (⟨ts, s.peeked_token, t, s.locals⟩ : Parser) =
        ⟨ts ++ Token.RParen :: rest, s.peeked_token, t, s.locals⟩ := by
      unfold wrapState
      split
      · rename_i h1 h2
        exact absurd h2 ht
      · rfl
    rw [hwn]
    simp [next_token, lexNext]

/-- `parse_prefix_handler` fails when the current token is `Eof`. -/
theorem parse_prefix_handler_eof (fuel : Nat) (p : Parser) (h : p.current_token = Token.Eof) :
    ∀ r, parse_prefix_handler fuel p ≠ .ok r := by
  intro r hok
  match fuel with
  | 0 => exact Except.noConfusion hok
  | fuel + 1 =>
    simp only [parse_prefix_handler] at hok
    rw [h] at hok
    exact Except.noConfusion hok

/-- `parse_expression` fails when the current token is `Eof`. -/
theorem parse_expression_eof (fuel : Nat) (prec : Precedence) (p : Parser)
    (h : p.current_token = Token.Eof) : ∀ r, parse_expression fuel prec p ≠ .ok r := by
  intro r hok
  match fuel with
  | 0 => exact Except.noConfusion hok
  | fuel + 1 =>
    simp only [parse_expression] at hok
    split at hok
    · exact Except.noConfusion hok
    · rename_i e₀ p₀ heq
      exact parse_prefix_handler_eof fuel p h _ heq

/-- A successful `parse_call_args_loop` stops with `)` as the peeked
token. -/
theorem parse_call_args_loop_final_peek :
    ∀ (fuel : Nat) (acc : List Expression) (p : Parser) (r : List Expression) (p' : Parser),
      parse_call_args_loop fuel acc p = .ok (r, p') → p'.peeked_token = Token.RParen := by
  intro fuel
  induction fuel with
  | zero => intro acc p r p' h; exact Except.noConfusion h
  | succ fuel ih =>
    intro acc p r p' h
    simp only [parse_call_args_loop] at h
    split at h
    · rename_i hcond
      cases h
      exact eq_of_beq hcond
    · split at h
      · exact Except.noConfusion h
      · rename_i e₁ p₁ heq
        exact ih _ _ _ _ h

/-- `parse_call_args_loop` fails on an exhausted stream (peek `Eof`). -/
theorem parse_call_args_loop_eof (fuel : Nat) (acc : List Expression) (p : Parser)
    (h : p.peeked_token = Token.Eof) : ∀ r, parse_call_args_loop fuel acc p ≠ .ok r := by
  intro r hok
  match fuel with
  | 0 => exact Except.noConfusion hok
  | fuel + 1 =>
    simp only [parse_call_args_loop] at hok
    split at hok
    · rename_i hcond
      rw [h] at hcond
      simp at hcond
    · split at hok
      · exact Except.noConfusion hok
      · rename_i e₁ p₁ heq
        refine parse_expression_eof fuel Precedence.Lowest (next_token p) ?_ _ heq
        simp [next_token, h]

/-- `parse_identifier_expression` returns its input state unchanged, and
its behaviour depends only on the symbol table. -/
theorem parse_identifier_expression_congr (name : String) (s s₂ : Parser)
    (h₂ : s₂.locals = s.locals) (a : Expression) (s' : Parser)
    (h : parse_identifier_expression name s = .ok (a, s')) :
    s' = s ∧ parse_identifier_expression name s₂ = .ok (a, s₂) := by
  unfold parse_identifier_expression at h ⊢
  have hfind : find_local_var s₂ name = find_local_var s name := by
    unfold find_local_var; rw [h₂]
  rw [hfind]
  split at h
  · rename_i lv hf
    cases h
    exact ⟨rfl, rfl⟩
  · exact Except.noConfusion h

/-- No precedence is below `Lowest` in the parser's precedence order. -/
theorem prec_lt_lowest (prec : Precedence) : prec.lt Precedence.Lowest = false := by
  cases prec <;> rfl

/-- The simulation invariant, proved for every fuel by induction: if an
expression-level parser function succeeds on a state whose stream simply
ends, it succeeds with the same result on the state whose stream continues
with `)` (and arbitrary further tokens), ending in the corresponding
wrapped state.  The two streams are indistinguishable to the expression
grammar because both `Eof` and `)` stop every expression-level loop. -/
structure SimInv (rest : List Token) (fuel : Nat) : Prop where
  expr : ∀ prec s a s', NoEof s → parse_expression fuel prec s = .ok (a, s') →
    parse_expression fuel prec (wrapState rest s) = .ok (a, wrapState rest s') ∧ NoEof s'
  pre : ∀ s a s', NoEof s → parse_prefix_handler fuel s = .ok (a, s') →
    parse_prefix_handler fuel (wrapState rest s) = .ok (a, wrapState rest s') ∧ NoEof s'
  exprLoop : ∀ prec e₀ s a s', NoEof s → parse_expression_loop fuel prec e₀ s = .ok (a, s') →
    parse_expression_loop fuel prec e₀ (wrapState rest s) =
      .ok (a, wrapState rest s') ∧ NoEof s'
  unary : ∀ s a s', NoEof s → parse_unary_expression fuel s = .ok (a, s') →
    parse_unary_expression fuel (wrapState rest s) = .ok (a, wrapState rest s') ∧ NoEof s'
  binary : ∀ l s a s', NoEof s → parse_binary_expression fuel l s = .ok (a, s') →
    parse_binary_expression fuel l (wrapState rest s) = .ok (a, wrapState rest s') ∧ NoEof s'
  grouped : ∀ s a s', NoEof s → parse_grouped_expression fuel s = .ok (a, s') →
    parse_grouped_expression fuel (wrapState rest s) = .ok (a, wrapState rest s') ∧ NoEof s'
  call : ∀ nm s a s', NoEof s → parse_call_expression fuel nm s = .ok (a, s') →
    parse_call_expression fuel nm (wrapState rest s) = .ok (a, wrapState rest s') ∧ NoEof s'
  callArgs : ∀ acc s a s', NoEof s → parse_call_args_loop fuel acc s = .ok (a, s') →
    parse_call_args_loop fuel acc (wrapState rest s) = .ok (a, wrapState rest s') ∧ NoEof s'

theorem simInv (rest : List Token) (fuel : Nat) : SimInv rest fuel := by
  induction fuel with
  | zero =>
    exact {
      expr := fun _ _ _ _ _ h => Except.noConfusion h
      pre := fun _ _ _ _ h => Except.noConfusion h
      exprLoop := fun _ _ _ _ _ _ h => Except.noConfusion h
      unary := fun _ _ _ _ h => Except.noConfusion h
      binary := fun _ _ _ _ _ h => Except.noConfusion h
      grouped := fun _ _ _ _ h => Except.noConfusion h
      call := fun _ _ _ _ _ h => Except.noConfusion h
      callArgs := fun _ _ _ _ _ h => Except.noConfusion h }
  | succ fuel ih =>
    refine { expr := ?_, pre := ?_, exprLoop := ?_, unary := ?_, binary := ?_,
             grouped := ?_, call := ?_, callArgs := ?_ }
    · -- parse_expression
      intro prec s a s' hno h
      simp only [parse_expression] at h ⊢
      split at h
      · exact Except.noConfusion h
      · rename_i e₀ p₀ heq
        have hpre := ih.pre _ _ _ hno heq
        have hloop := ih.exprLoop _ _ _ _ _ hpre.2 h
        rw [hpre.1]
        exact ⟨hloop.1, hloop.2⟩
    · -- parse_prefix_handler
      intro s a s' hno h
      simp only [parse_prefix_handler] at h ⊢
      rw [wrapState_current]
      revert h
      cases hc : s.current_token <;> intro h
      all_goals try exact Except.noConfusion h
      · -- Integer
        cases h
        exact ⟨rfl, hno⟩
      · -- Identifier
        rename_i name
        by_cases hpad : atEnd s
        · have hpe : s.peeked_token = Token.Eof := hpad.2
          rw [hpe] at h
          rw [wrapState_of_atEnd rest s hpad]
          obtain ⟨hs', hrun⟩ := parse_identifier_expression_congr name s
            ⟨rest, s.current_token, Token.RParen, s.locals⟩ rfl a s' h
          rw [hs', wrapState_of_atEnd rest s hpad]
          exact ⟨hrun, hno⟩
        · rw [wrapState_peek_of_not_atEnd rest s hpad]
          revert h
          cases hp2 : s.peeked_token <;> intro h
          all_goals try (
            obtain ⟨hs', hrun⟩ := parse_identifier_expression_congr name s
              (wrapState rest s) (wrapState_locals rest s) a s' h
            rw [hs']
            exact ⟨hrun, hno⟩)
          · -- LParen
            have hcall := ih.call _ _ _ _ (NoEof_next s hno) h
            rw [← wrap_next rest s hno hpad]
            exact ⟨hcall.1, hcall.2⟩
      · -- Minus
        have hu := ih.unary _ _ _ hno h
        exact ⟨hu.1, hu.2⟩
      · -- LParen
        have hg := ih.grouped _ _ _ hno h
        exact ⟨hg.1, hg.2⟩
    · -- parse_expression_loop
      intro prec e₀ s a s' hno h
      simp only [parse_expression_loop] at h ⊢
      by_cases hpad : atEnd s
      · rw [if_neg (by rw [hpad.2]; simp)] at h
        cases h
        rw [wrapState_of_atEnd rest s hpad]
        rw [if_neg (by simp [peek_precedence, get_precedence, prec_lt_lowest])]
        exact ⟨rfl, hno⟩
      · have hpk := wrapState_peek_of_not_atEnd rest s hpad
        have hpp : peek_precedence (wrapState rest s) = peek_precedence s := by
          unfold peek_precedence; rw [hpk]
        rw [hpk, hpp]
        split at h
        · rename_i hcond
          rw [if_pos hcond]
          revert h
          cases hpk2 : s.peeked_token <;> intro h
          all_goals try exact Except.noConfusion h
          all_goals (
            cases hB2 : parse_binary_expression fuel e₀ (next_token s) with
            | error e => rw [hB2] at h; exact Except.noConfusion h
            | ok res =>
              obtain ⟨e₁, p₁⟩ := res
              rw [hB2] at h
              have hB := ih.binary _ _ _ _ (NoEof_next s hno) hB2
              rw [← wrap_next rest s hno hpad, hB.1]
              exact ⟨(ih.exprLoop _ _ _ _ _ hB.2 h).1, (ih.exprLoop _ _ _ _ _ hB.2 h).2⟩)
        · rename_i hcond
          rw [if_neg hcond]
          cases h
          exact ⟨rfl, hno⟩
    · -- parse_unary_expression
      intro s a s' hno h
      simp only [parse_unary_expression] at h ⊢
      rw [wrapState_current]
      split at h
      · split at h
        · exact Except.noConfusion h
        · rename_i e₁ p₁ heqE
          cases h
          by_cases hpad : atEnd s
          · exact absurd heqE (parse_expression_eof _ _ _
              (show (next_token s).current_token = Token.Eof from hpad.2) _)
          · have hE := ih.expr _ _ _ _ (NoEof_next s hno) heqE
            rw [← wrap_next rest s hno hpad, hE.1]
            exact ⟨rfl, hE.2⟩
      · exact Except.noConfusion h
    · -- parse_binary_expression
      intro l s a s' hno h
      simp only [parse_binary_expression] at h ⊢
      rw [wrapState_current]
      split at h
      · exact Except.noConfusion h
      · rename_i op swap heqOp
        split at h
        · exact Except.noConfusion h
        · rename_i right p₁ heqE
          by_cases hpad : atEnd s
          · exact absurd heqE (parse_expression_eof _ _ _
              (show (next_token s).current_token = Token.Eof from hpad.2) _)
          · have hE := ih.expr _ _ _ _ (NoEof_next s hno) heqE
            rw [← wrap_next rest s hno hpad, hE.1]
            cases swap
            · cases h; exact ⟨rfl, hE.2⟩
            · cases h; exact ⟨rfl, hE.2⟩
    · -- parse_grouped_expression
      intro s a s' hno h
      simp only [parse_grouped_expression] at h ⊢
      split at h
      · exact Except.noConfusion h
      · rename_i e₁ p₁ heqE
        split at h
        · exact Except.noConfusion h
        · rename_i hcond
          cases h
          have hpR : p₁.peeked_token = Token.RParen := by
            simpa using hcond
          by_cases hpad : atEnd s
          · exact absurd heqE (parse_expression_eof _ _ _
              (show (next_token s).current_token = Token.Eof from hpad.2) _)
          · have hE := ih.expr _ _ _ _ (NoEof_next s hno) heqE
            have hpad₁ : ¬ atEnd p₁ := fun hp => by
              rw [hp.2] at hpR; exact Token.noConfusion hpR
            rw [← wrap_next rest s hno hpad, hE.1]
            simp only []
            rw [show (wrapState rest p₁).peeked_token = p₁.peeked_token from
                  wrapState_peek_of_not_atEnd rest p₁ hpad₁, hpR]
            rw [← wrap_next rest p₁ hE.2 hpad₁]
            exact ⟨by simp, NoEof_next p₁ hE.2⟩
    · -- parse_call_expression
      intro nm s a s' hno h
      simp only [parse_call_expression] at h ⊢
      split at h
      · exact Except.noConfusion h
      · rename_i args p₁ heqA
        cases h
        have hA := ih.callArgs _ _ _ _ hno heqA
        have hpR := parse_call_args_loop_final_peek fuel [] s args p₁ heqA
        have hpad₁ : ¬ atEnd p₁ := fun hp => by
          rw [hp.2] at hpR; exact Token.noConfusion hpR
        rw [hA.1]
        simp only []
        rw [← wrap_next rest p₁ hA.2 hpad₁]
        exact ⟨rfl, NoEof_next p₁ hA.2⟩
    · -- parse_call_args_loop
      intro acc s a s' hno h
      by_cases hpad : atEnd s
      · exact absurd h (parse_call_args_loop_eof (fuel + 1) acc s hpad.2 _)
      · simp only [parse_call_args_loop] at h ⊢
        rw [wrapState_peek_of_not_atEnd rest s hpad]
        split at h
        · rename_i hcond
          cases h
          rw [if_pos hcond]
          exact ⟨rfl, hno⟩
        · rename_i hcond
          rw [if_neg hcond]
          split at h
          · exact Except.noConfusion h
          · rename_i e₁ p₁ heqE
            have hE := ih.expr _ _ _ _ (NoEof_next s hno) heqE
            rw [← wrap_next rest s hno hpad, hE.1]
            simp only []
            by_cases hpad₁ : atEnd p₁
            · exfalso
              rw [if_neg (by rw [hpad₁.2]; simp)] at h
              exact parse_call_args_loop_eof fuel _ p₁ hpad₁.2 _ h
            · rw [wrapState_peek_of_not_atEnd rest p₁ hpad₁]
              cases hcomma : (p₁.peeked_token == Token.Comma)
              · rw [if_neg (by simp [hcomma])] at h
                rw [if_neg (show ¬((false : Bool) = true) by simp)]
                exact ⟨(ih.callArgs _ _ _ _ hE.2 h).1, (ih.callArgs _ _ _ _ hE.2 h).2⟩
              · rw [if_pos hcomma] at h
                rw [if_pos rfl]
                rw [← wrap_next rest p₁ hE.2 hpad₁]
                exact ⟨(ih.callArgs _ _ _ _ (NoEof_next p₁ hE.2) h).1,
                       (ih.callArgs _ _ _ _ (NoEof_next p₁ hE.2) h).2⟩

/-- A token list is a well-formed expression with AST `e`: running
`parse_expression(Lowest)` on it from a fresh parser succeeds with result
`e`, consuming the entire list. -/
def ExprWF (ts : List Token) (e : Expression) : Prop :=
  ∃ fuel s', parse_expression fuel Precedence.Lowest (Parser.new ts) = .ok (e, s') ∧ atEnd s'

/-- `ts` surrounded by `n` matched pairs of parentheses. -/
def wrapTokens (n : Nat) (ts : List Token) : List Token :=
  List.replicate n Token.LParen ++ ts ++ List.replicate n Token.RParen

theorem NoEof_new (ts : List Token) (h : Token.Eof ∉ ts) : NoEof (Parser.new ts) := by
  cases ts with
  | nil => exact ⟨by simp [Parser.new, lexNext], fun _ => rfl⟩
  | cons t ts' =>
    cases ts' with
    | nil => exact ⟨by simp [Parser.new, lexNext], fun _ => rfl⟩
    | cons u rest =>
      refine ⟨?_, ?_⟩
      · intro hmem
        exact h (by simp [Parser.new, lexNext] at hmem; simp [hmem])
      · intro hp
        simp [Parser.new, lexNext] at hp
        exact absurd (by rw [hp]; simp : Token.Eof ∈ t :: u :: rest) h

/-- One wrapping step: if `us` parses completely to `e`, so does
`( us )`. -/
theorem wrap_one (us : List Token) (e : Expression) (hno : Token.Eof ∉ us)
    (h : ExprWF us e) : ExprWF (Token.LParen :: us ++ [Token.RParen]) e := by
  obtain ⟨f, s', hrun, hend⟩ := h
  have hnos : NoEof (Parser.new us) := NoEof_new us hno
  have hsim := (simInv [] f).expr Precedence.Lowest (Parser.new us) e s' hnos hrun
  have hwrap_s' : wrapState [] s' = ⟨[], s'.current_token, Token.RParen, s'.locals⟩ :=
    wrapState_of_atEnd [] s' hend
  have h1 : next_token (Parser.new (Token.LParen :: us ++ [Token.RParen])) =
      wrapState [] (Parser.new us) := by
    cases us with
    | nil =>
      exact absurd hrun (parse_expression_eof f _ _ rfl _)
    | cons u us' =>
      cases us' with
      | nil => rfl
      | cons v rest =>
        have hv : v ≠ Token.Eof := fun hve => hno (by rw [← hve]; simp)
        have h2 : wrapState [] (Parser.new (u :: v :: rest)) =
            ⟨rest ++ [Token.RParen], u, v, []⟩ := by
          unfold wrapState
          split
          · rename_i hl hp
            exact absurd hp hv
          · rfl
        rw [h2]
        rfl
  refine ⟨((f + 1) + 1) + 1, ⟨[], Token.RParen, Token.Eof, s'.locals⟩, ?_, rfl, rfl⟩
  have hgrouped : parse_grouped_expression (f + 1)
      (Parser.new (Token.LParen :: us ++ [Token.RParen])) =
      .ok (e, ⟨[], Token.RParen, Token.Eof, s'.locals⟩) := by
    simp only [parse_grouped_expression]
    rw [h1, hsim.1, hwrap_s']
    rfl
  have hpre : parse_prefix_handler ((f + 1) + 1)
      (Parser.new (Token.LParen :: us ++ [Token.RParen])) =
      .ok (e, ⟨[], Token.RParen, Token.Eof, s'.locals⟩) := hgrouped
  simp only [parse_expression]
  rw [hpre]
  rfl

/-- Shape probe distinguishing the two parses in the C4 counterexample:
does the parse result hold a `Binary` node whose left operand is an
integer literal? -/
def lhsIsIntegerProbe : Except String Expression → Bool
  | .ok (Expression.Binary ⟨Expression.Integer _, _, _⟩) => true
  | _ => false

/-- The offset sequence of the spec's allocation rule: each local's offset
is the previous offset plus the size of the local's own type, starting
from `a`. -/
def offsetRule (a : Nat) : List (Ty × String) → List Nat
  | [] => []
  | (t, _) :: rest => (a + sizeof t) :: offsetRule (a + sizeof t) rest

/-! ## Claim C1 -/

/-- Claim C1: parsing `int foo(int i) { return i; } int main() { int a =
foo(10); return 10; }` yields two `FunctionDefinition`s with `foo`'s
parameter at offset 8 — but `main`'s local `a` is recorded at offset 16,
not 8 as the claim states: the symbol table persists across function
boundaries, so `a` is placed after `foo`'s parameter `i` (offset 8) plus
`size_of(int) = 8`.  (The repository's own `test_parse` expects `a` at
offset 8 and fails on the current code.) -/
theorem c1_main_local_offset_is_16 :
    parseProgram "int foo(int i) { return i; } int main() { int a = foo(10); return 10; }" =
      Except.ok ⟨[
        Statement.FunctionDefinition ⟨"foo",
          [Expression.LocalVariable "i" 8 (Ty.Primitive TypeEnum.Int)],
          [Statement.Return (Expression.LocalVariable "i" 8 (Ty.Primitive TypeEnum.Int))]⟩,
        Statement.FunctionDefinition ⟨"main",
          [],
          [Statement.InitDeclaration ⟨"a", 16, Ty.Primitive TypeEnum.Int,
             some (Expression.Call ⟨"foo", [Expression.Integer 10]⟩)⟩,
           Statement.Return (Expression.Integer 10)]⟩]⟩ := by
  rfl

/-! ## Claim C2 -/

/-- Claim C2: parsing `for (;;) return 0;` is claimed to succeed with the
three header slots `None` — but the code fails with `Invalid token:
SemiColon`: the condition's `None` branch does not consume the second `;`,
so the step slot then tries to parse `;` as an expression. -/
theorem c2_empty_for_header_fails :
    parseProgram "for (;;) return 0;" = Except.error "Invalid token: SemiColon" := by
  rfl

/-! ## Claim C7 -/

/-- Claim C7: parsing the whole-program input `a;`, where `a` was never
declared, fails with an undefined-variable error. -/
theorem c7_undefined_identifier_fails :
    parseProgram "a;" = Except.error "Undefined variable: a" := by
  rfl

/-! ## Claim C8 -/

/-- Claim C8: parsing `bar(1, 2); return 0;` succeeds although `bar` is
never declared — call expressions do not consult the symbol table — and
yields an `Expression` statement holding `Call("bar", [1, 2])` followed by
`Return(0)`. -/
theorem c8_undeclared_callee_parses :
    parseProgram "bar(1, 2); return 0;" =
      Except.ok ⟨[
        Statement.Expression (Expression.Call ⟨"bar",
          [Expression.Integer 1, Expression.Integer 2]⟩),
        Statement.Return (Expression.Integer 0)]⟩ := by
  rfl

/-! ## Claim C10 -/

/-- Claim C10: an expression statement is accepted when the token after its
expression is `)` as well as when it is `;`: the whole-program input `5)`,
which contains no semicolon, parses to `Program([Expression(Integer(5))])`
exactly as `5;` does, with no missing-semicolon error. -/
theorem c10_rparen_terminates_expression_statement :
    parseProgram "5)" = Except.ok ⟨[Statement.Expression (Expression.Integer 5)]⟩ ∧
    parseProgram "5;" = Except.ok ⟨[Statement.Expression (Expression.Integer 5)]⟩ := by
  exact ⟨rfl, rfl⟩

/-! ## Claim C3, amended -/

/-- Claim C3 (amended): for every input that parses successfully, the
parser's symbol table — which records every declaration and parameter in
allocation order — is chained: each entry's offset is the previous entry's
offset plus `size_of` of the entry's **own** type (and the first entry's
offset is `size_of` of its own type). -/
theorem c3_amended_offsets_chained :
    ∀ (input : String) (r : Program × Parser),
      parseWithState input = Except.ok r → localsChained r.2.locals = true := by
  intro input r h
  unfold parseWithState at h
  split at h
  · exact Except.noConfusion h
  · rename_i ts hT
    obtain ⟨prog, s⟩ := r
    have := (parserInv (fuelFor ts)).parseAll _ _ _ h
    exact this.1 rfl

/-- Witness for C3 (amended): the input `int a = 0; char b = 0;` parses,
and its final symbol table `[a ↦ 8 (int), b ↦ 9 (char)]` is chained. -/
theorem c3_amended_offsets_chained_witness :
    localsChained [⟨"a", 8, Ty.Primitive TypeEnum.Int⟩,
                   ⟨"b", 9, Ty.Primitive TypeEnum.Char⟩] = true :=
  c3_amended_offsets_chained "int a = 0; char b = 0;"
    (⟨[Statement.InitDeclaration ⟨"a", 8, Ty.Primitive TypeEnum.Int,
          some (Expression.Integer 0)⟩,
       Statement.InitDeclaration ⟨"b", 9, Ty.Primitive TypeEnum.Char,
          some (Expression.Integer 0)⟩]⟩,
     ⟨[], Token.Eof, Token.Eof,
      [⟨"a", 8, Ty.Primitive TypeEnum.Int⟩,
       ⟨"b", 9, Ty.Primitive TypeEnum.Char⟩]⟩) rfl

/-! ## Claim C6, amended -/

/-- Claim C6 (amended): in every successfully parsed program, every
`FunctionDefinition`'s `arguments` field contains only `LocalVariable`
expressions with **non-decreasing** offsets, strictly ascending whenever
every parameter type has positive size (a zero-sized type such as `void`
yields equal offsets) — all via `fdArgsGood` inside `stmtsFdGood`; and the
arguments keep the source order of the parameter list: for every collected
parameter list, `alloc_params` returns `LocalVariable`s whose names and
types are exactly the parameters' names and declared types in order. -/
theorem c6_amended_arguments_shape :
    (∀ (input : String) (prog : Program),
      parseProgram input = Except.ok prog →
        stmtsFdGood prog.statements = true) ∧
    (∀ (ps : List (Ty × String)) (p : Parser),
      (alloc_params ps p).1.map Expression.localName = ps.map Prod.snd ∧
      (alloc_params ps p).1.map Expression.localTy = ps.map Prod.fst) := by
  constructor
  · intro input prog h
    unfold parseProgram parseWithState at h
    split at h
    · exact Except.noConfusion h
    · rename_i ts hT
      cases hp : parse (fuelFor ts) (Parser.new ts) with
      | error e => rw [hp] at h; exact Except.noConfusion h
      | ok r =>
        obtain ⟨prog', s⟩ := r
        rw [hp] at h
        cases h
        exact ((parserInv (fuelFor ts)).parseAll _ _ _ hp).2
  · exact alloc_params_names_tys

/-- Witness for C6 (amended): `int f(int a, int b) { return 0; }` parses to
a single function definition whose arguments are `LocalVariable`s with
strictly ascending offsets 8, 16, and `alloc_params` on the collected
parameter list `[(int, "a"), (int, "b")]` returns the names `a`, `b` and
types `int`, `int` in source order. -/
theorem c6_amended_arguments_shape_witness :
    stmtsFdGood [Statement.FunctionDefinition ⟨"f",
      [Expression.LocalVariable "a" 8 (Ty.Primitive TypeEnum.Int),
       Expression.LocalVariable "b" 16 (Ty.Primitive TypeEnum.Int)],
      [Statement.Return (Expression.Integer 0)]⟩] = true ∧
    (alloc_params [(Ty.Primitive TypeEnum.Int, "a"),
        (Ty.Primitive TypeEnum.Int, "b")] (Parser.new [])).1.map
      Expression.localName = ["a", "b"] ∧
    (alloc_params [(Ty.Primitive TypeEnum.Int, "a"),
        (Ty.Primitive TypeEnum.Int, "b")] (Parser.new [])).1.map
      Expression.localTy =
        [Ty.Primitive TypeEnum.Int, Ty.Primitive TypeEnum.Int] :=
  ⟨c6_amended_arguments_shape.1 "int f(int a, int b) { return 0; }"
    ⟨[Statement.FunctionDefinition ⟨"f",
      [Expression.LocalVariable "a" 8 (Ty.Primitive TypeEnum.Int),
       Expression.LocalVariable "b" 16 (Ty.Primitive TypeEnum.Int)],
      [Statement.Return (Expression.Integer 0)]⟩]⟩ rfl,
   c6_amended_arguments_shape.2
     [(Ty.Primitive TypeEnum.Int, "a"), (Ty.Primitive TypeEnum.Int, "b")]
     (Parser.new [])⟩

/-! ## Claim C6, counterexample -/

/-- Claim C6 is false under the strict reading of "ascending": the input
`int f(void a, void b) { return 0; }` parses successfully, and since
`size_of(void) = 0` both parameters receive offset 0 — the argument
offsets `[0, 0]` are not strictly ascending (they are merely
non-decreasing). -/
theorem c6_counterexample_void_params :
    parseProgram "int f(void a, void b) { return 0; }" =
      Except.ok ⟨[Statement.FunctionDefinition ⟨"f",
        [Expression.LocalVariable "a" 0 (Ty.Primitive TypeEnum.Void),
         Expression.LocalVariable "b" 0 (Ty.Primitive TypeEnum.Void)],
        [Statement.Return (Expression.Integer 0)]⟩]⟩ ∧
    ascStrict ([Expression.LocalVariable "a" 0 (Ty.Primitive TypeEnum.Void),
        Expression.LocalVariable "b" 0 (Ty.Primitive TypeEnum.Void)].map
        Expression.localOffset) = false := by
  exact ⟨rfl, rfl⟩

/-! ## Claim C9 -/

/-- Claim C9: grouping parentheses leave no trace in the AST — for every
well-formed expression (a lexed, `Eof`-free token list whose
`parse_expression(Lowest)` run succeeds consuming the whole list, with AST
`e`) and every number `n` of wrappings, parsing the expression surrounded
by `n` matched pairs of parentheses succeeds and yields the same AST
`e`. -/
theorem c9_paren_invariance :
    ∀ (ts : List Token) (e : Expression), Token.Eof ∉ ts → ExprWF ts e →
      ∀ n : Nat, ExprWF (wrapTokens n ts) e := by
  intro ts e hno hwf n
  induction n with
  | zero => simpa [wrapTokens] using hwf
  | succ n ihn =>
    have hnowrap : Token.Eof ∉ wrapTokens n ts := by
      intro hmem
      simp [wrapTokens, List.mem_append, List.mem_replicate] at hmem
      exact hno hmem
    have hstep := wrap_one (wrapTokens n ts) e hnowrap ihn
    have heq : wrapTokens (n + 1) ts =
        Token.LParen :: wrapTokens n ts ++ [Token.RParen] := by
      simp [wrapTokens, List.replicate_succ]
      rw [← List.replicate_succ, List.replicate_succ']
    rw [heq]
    exact hstep

/-- Witness for C9: the single-token expression `5` parses to
`Integer 5`, and so does `((5))`. -/
theorem c9_paren_invariance_witness :
    ExprWF (wrapTokens 2 [Token.Integer 5]) (Expression.Integer 5) :=
  c9_paren_invariance [Token.Integer 5] (Expression.Integer 5)
    (by simp)
    ⟨4, ⟨[], Token.Integer 5, Token.Eof, []⟩, rfl, rfl, rfl⟩
    2

/-! ## Claim C3, counterexample -/

/-- Claim C3 is false as stated: in `int a = 0; char b = 0;` the
declaration of `b` immediately follows that of `a`, yet `b`'s recorded
offset is 9 = offset(a) + size_of(char), not offset(a) + size_of(int) = 16:
the allocation rule adds the size of the new declaration's own type, not
the size of the preceding declaration's type. -/
theorem c3_counterexample_own_type_size :
    parseProgram "int a = 0; char b = 0;" =
      Except.ok ⟨[
        Statement.InitDeclaration ⟨"a", 8, Ty.Primitive TypeEnum.Int,
          some (Expression.Integer 0)⟩,
        Statement.InitDeclaration ⟨"b", 9, Ty.Primitive TypeEnum.Char,
          some (Expression.Integer 0)⟩]⟩ ∧
    (9 : Nat) ≠ 8 + sizeof (Ty.Primitive TypeEnum.Int) := by
  exact ⟨rfl, by decide⟩

/-! ## Claim C4, counterexample -/

/-- Claim C4 is false as stated: with the expressions a = `1 < 2` and
b = `3`, parsing `a > b` (the input `1 < 2 > 3`) gives
`Lt(3, Lt(1, 2))` while parsing `b < a` (the input `3 < 1 < 2`) gives
`Lt(Lt(3, 1), 2)`; both parses succeed and the ASTs differ. -/
theorem c4_counterexample_compound_operand :
    parseExpressionStr "1 < 2 > 3" =
      Except.ok (Expression.Binary ⟨Expression.Integer 3, BinaryOperator.Lt,
        Expression.Binary ⟨Expression.Integer 1, BinaryOperator.Lt, Expression.Integer 2⟩⟩) ∧
    parseExpressionStr "3 < 1 < 2" =
      Except.ok (Expression.Binary ⟨
        Expression.Binary ⟨Expression.Integer 3, BinaryOperator.Lt, Expression.Integer 1⟩,
        BinaryOperator.Lt, Expression.Integer 2⟩) ∧
    parseExpressionStr "1 < 2 > 3" ≠ parseExpressionStr "3 < 1 < 2" := by
  refine ⟨rfl, rfl, fun h => ?_⟩
  exact Bool.noConfusion (show (true : Bool) = false from congrArg lhsIsIntegerProbe h)

/-! ## Claim C4, amended -/

/-- Claim C4 (amended): for integer-literal operands the rewrite holds —
for all m and n, the AST of `m > n` equals the AST of `n < m`, and the AST
of `m >= n` equals the AST of `n <= m` (an `Lt`/`LtEq` node with swapped
operands); and the `BinaryOperator` type has no `Gt` or `GtEq` variant, so
no parser output can contain one. -/
theorem c4_amended_swap_for_literals :
    (∀ m n : Int,
      (parse_expression 8 Precedence.Lowest
          (Parser.new [Token.Integer m, Token.Gt, Token.Integer n])).map Prod.fst =
        (parse_expression 8 Precedence.Lowest
          (Parser.new [Token.Integer n, Token.Lt, Token.Integer m])).map Prod.fst ∧
      (parse_expression 8 Precedence.Lowest
          (Parser.new [Token.Integer m, Token.GtEq, Token.Integer n])).map Prod.fst =
        (parse_expression 8 Precedence.Lowest
          (Parser.new [Token.Integer n, Token.LtEq, Token.Integer m])).map Prod.fst) ∧
    (∀ op : BinaryOperator,
      op = BinaryOperator.Assignment ∨ op = BinaryOperator.Plus ∨
      op = BinaryOperator.Minus ∨ op = BinaryOperator.Slash ∨
      op = BinaryOperator.Asterisk ∨ op = BinaryOperator.Lt ∨
      op = BinaryOperator.LtEq ∨ op = BinaryOperator.Eq ∨
      op = BinaryOperator.NotEq) := by
  constructor
  · intro m n
    exact ⟨rfl, rfl⟩
  · intro op
    cases op <;> simp

/-! ## Claim C5 -/

/-- Claim C5: for every sequence of local-variable allocations (and any
prior symbol-table state), the offsets assigned follow the rule
`offset = previous_offset + size_of(own type)` with the previous offset
taken from the most recently allocated local or 0 when none exists; in
particular allocating `int a` then `char b` into an empty table yields
offsets 8 and then 9. -/
theorem c5_allocation_offsets_rule :
    (∀ (decls : List (Ty × String)) (p : Parser),
      ((alloc_params decls p).2.locals.map LVar.offset) =
        p.locals.map LVar.offset ++ offsetRule (lastOffsetD p.locals) decls) ∧
    ((alloc_params [(Ty.Primitive TypeEnum.Int, "a"), (Ty.Primitive TypeEnum.Char, "b")]
        ⟨[], Token.Eof, Token.Eof, []⟩).2.locals.map LVar.offset = [8, 9]) := by
  constructor
  · intro decls
    induction decls with
    | nil => intro p; simp [alloc_params, offsetRule]
    | cons d rest ih =>
      intro p
      obtain ⟨t, n⟩ := d
      simp only [alloc_params, new_local_var, offsetRule]
      rw [ih]
      simp [lastOffsetD, List.getLast?_concat]
  · rfl

end Ubcc

